import Mathlib

/-! flow-dps trie engine: node iterator, lazy branch hashing, node pool.

A shallow embedding of `ledger/trie/{node,leaf,branch,iterator,pool}.go` and of
`models/convert/types.go`.

* A Go `Node` interface value is either `nil` or a pointer to a `Leaf` or a `Branch`.
  The embedding is the inductive type `Node`; every non-nil node carries the address
  `ptr` of the object it stands for, so that Go's `==` on interface values (same dynamic
  type and same pointer) can be told apart from structural equality.
* Methods with a pointer receiver that assign to fields return the updated node.
* A Go panic is the value `none`.
* `hash.HashInterNode` and `ledger.GetDefaultHashForHeight` belong to the flow-go
  library; they are parameters of every definition that calls them.
* The sources disagree on the signature of `Hash` (node.go: no parameter; leaf.go:
  `int`; branch.go: `uint8`). The embedding follows the calls of branch.go, which pass
  the height on to the children; a height is a `Nat`, on which no arithmetic is done.
* The `Extension` variant has no source file here. For the traversal it behaves as a
  `Branch` with one child; its hashing is not modelled.
-/

namespace trie

/-- A 32-byte array (`[32]byte`, which `hash.Hash` is), read as one number. -/
abbrev Bytes32 := Nat

/-- The struct `Leaf` of leaf.go. -/
structure Leaf where
  hash : Bytes32
  path : Bytes32
  key : Bytes32
deriving DecidableEq

/-- A value of the interface `Node` of node.go: `nil`, a `*Leaf` or a `*Branch`
(fields `hash`, `dirty`, `left`, `right` of branch.go). `ptr` is the address of
the object. -/
inductive Node where
  | nil : Node
  | leaf (ptr : Nat) (l : Leaf) : Node
  | branch (ptr : Nat) (hash : Bytes32) (dirty : Bool) (left right : Node) : Node
deriving DecidableEq

/-- Modelled from the spec: the accessor `LeftChild` of the `Node` interface, whose
method bodies are missing from the sources: the left child of a Branch, nil for a
Leaf ("left/right child accessors (nil-able, meaningful only for Branch)"). -/
def Node.LeftChild : Node → Node
  | .branch _ _ _ l _ => l
  | _ => .nil

/-- Modelled from the spec: the accessor `RightChild` of the `Node` interface, whose
method bodies are missing from the sources: the right child of a Branch, nil for a
Leaf. -/
def Node.RightChild : Node → Node
  | .branch _ _ _ _ r => r
  | _ => .nil

/-- Go's `a == b` on two `Node` interface values: both nil, or the same dynamic type
and the same pointer. -/
def Node.same : Node → Node → Bool
  | .nil, .nil => true
  | .leaf p _, .leaf q _ => p == q
  | .branch p _ _ _ _, .branch q _ _ _ _ => p == q
  | _, _ => false

/-- All nodes of the subtree rooted at a node, the node itself first. -/
def Node.nodes : Node → List Node
  | .nil => []
  | .leaf p l => [.leaf p l]
  | .branch p h d l r => .branch p h d l r :: (l.nodes ++ r.nodes)

/-- The proper descendants of a node: every node reachable from it through
`LeftChild` / `RightChild`. -/
def Node.descendants (n : Node) : List Node :=
  n.LeftChild.nodes ++ n.RightChild.nodes

/-- Number of nodes of the subtree rooted at a node. -/
def Node.size : Node → Nat
  | .nil => 0
  | .leaf _ _ => 1
  | .branch _ _ _ l r => 1 + l.size + r.size

/-- The recursive post-order traversal: left subtree, right subtree, node. -/
def Node.postorder : Node → List Node
  | .nil => []
  | .leaf p l => [.leaf p l]
  | .branch p h d l r => l.postorder ++ r.postorder ++ [.branch p h d l r]

/-- The nodes of a trie are pairwise distinct objects: no node is reachable along two
different paths (the structure in memory is a tree, not a DAG). -/
def Node.IsTree (t : Node) : Prop :=
  t.nodes.Pairwise (fun a b => a.same b = false)

instance (t : Node) : Decidable t.IsTree := by
  unfold Node.IsTree; infer_instance

/-- Modelled from the spec: the type `Trie` ("an immutable handle to a root Node (or
an explicit empty marker)"), of which the sources only show the call `tr.RootNode()`. -/
structure Trie where
  root : Node
deriving DecidableEq

/-- Modelled from the spec: `RootNode` returns the root the Trie wraps (nil when empty). -/
def Trie.RootNode (tr : Trie) : Node := tr.root

/-! ## iterator.go -/

/-- The struct `NodeIterator`. `stack` is the Go slice: the top of the stack is the
last element. -/
structure NodeIterator where
  unprocessedRoot : Node
  stack : List Node
deriving DecidableEq

/-- `NewNodeIterator`: empty stack, the trie's root as unprocessedRoot. -/
def NewNodeIterator (tr : Trie) : NodeIterator :=
  { stack := [], unprocessedRoot := tr.RootNode }

/-- `pop`: nil on an empty stack, else removes and returns the last element. -/
def NodeIterator.pop (i : NodeIterator) : NodeIterator × Node :=
  if h : i.stack.length = 0 then
    (i, .nil)
  else
    let headIdx := i.stack.length - 1
    let head := i.stack[headIdx]
    ({ i with stack := i.stack.take headIdx }, head)

/-- `peek`: `i.stack[len(i.stack)-1]`; `none` is the index-out-of-range panic. -/
def NodeIterator.peek (i : NodeIterator) : Option Node :=
  if i.stack.length = 0 then none else i.stack[i.stack.length - 1]?

/-- `dig`: pushes `n`, then its left child if present, else its right child, and so
on until a childless node is pushed. -/
def NodeIterator.dig (i : NodeIterator) : Node → NodeIterator
  | .nil => i
  | .leaf p l => { i with stack := i.stack ++ [.leaf p l] }
  | .branch p h d l r =>
    let i1 : NodeIterator := { i with stack := i.stack ++ [.branch p h d l r] }
    if l ≠ .nil then i1.dig l
    else if r ≠ .nil then i1.dig r
    else i1

/-- `Next`: the new iterator state and the returned bool (`none`: panic). -/
def NodeIterator.Next (i : NodeIterator) : Option (NodeIterator × Bool) :=
  if i.unprocessedRoot ≠ .nil then
    some ({ i.dig i.unprocessedRoot with unprocessedRoot := .nil }, true)
  else
    let (i1, n) := i.pop
    if i1.stack.length > 0 then
      match i1.peek with
      | none => none
      | some parent =>
        if parent.LeftChild.same n then some (i1.dig parent.RightChild, true)
        else some (i1, true)
    else
      some (i1, false)

/-- `Value`: nil on an empty stack, else the top of the stack. -/
def NodeIterator.Value (i : NodeIterator) : Option Node :=
  if i.stack.length = 0 then some .nil else i.peek

/-- The consumer loop `for it.Next() { out = append(out, it.Value()) }`: the sequence
of nodes the iterator emits. `none` when a call panics or when `fuel` calls of `Next`
were made and none returned false. -/
def NodeIterator.drain : Nat → NodeIterator → Option (List Node)
  | 0, _ => none
  | fuel + 1, i =>
    match i.Next with
    | none => none
    | some (_, false) => some []
    | some (i1, true) =>
      match i1.Value, drain fuel i1 with
      | some v, some vs => some (v :: vs)
      | _, _ => none

/-- The return values of `k` successive calls of `Next`, and the state they leave. -/
def NodeIterator.NextTimes : Nat → NodeIterator → Option (List Bool × NodeIterator)
  | 0, i => some ([], i)
  | k + 1, i =>
    match i.Next with
    | none => none
    | some (i1, b) =>
      match NextTimes k i1 with
      | none => none
      | some (bs, i2) => some (b :: bs, i2)

/-- `Emits i vs j`: starting in state `i`, `vs.length` calls of `Next` all return true,
the values read after them are `vs`, and the iterator is left in state `j`. -/
inductive NodeIterator.Emits : NodeIterator → List Node → NodeIterator → Prop
  | done (i : NodeIterator) : NodeIterator.Emits i [] i
  | step {i i1 j : NodeIterator} {v : Node} {vs : List Node} :
      i.Next = some (i1, true) → i1.Value = some v → NodeIterator.Emits i1 vs j →
      NodeIterator.Emits i (v :: vs) j

/-- In a list with this property every node comes after all of its descendants. -/
def DescendantsFirst (seq : List Node) : Prop :=
  ∀ (k : Nat) (n : Node), seq[k]? = some n →
    ∀ d ∈ n.descendants, ∃ j, j < k ∧ seq[j]? = some d

/-- The nodes met when descending from a node, at each node going to the left child
if it is present and otherwise to the right child, until a childless node is reached;
the starting node comes first. Empty for nil. -/
def Node.descent : Node → List Node
  | .nil => []
  | .leaf p l => [.leaf p l]
  | .branch p h d l r => .branch p h d l r :: (if l ≠ .nil then l.descent else r.descent)

/-- `b` is the node the left-priority descent goes to from `a`: the left child of `a`
if present, otherwise its right child. -/
def Node.DescendsTo (a b : Node) : Prop :=
  b ≠ .nil ∧ ((a.LeftChild ≠ .nil ∧ b = a.LeftChild) ∨ (a.LeftChild = .nil ∧ b = a.RightChild))

/-- `b` is a child of `a`: its left or its right child, and not nil. -/
def Node.IsChildOf (a b : Node) : Prop :=
  b ≠ .nil ∧ (b = a.LeftChild ∨ b = a.RightChild)

/-- Number of nodes on the longest path from a node down to a childless node: the
height of the subtree in edges, plus one; 0 for nil. -/
def Node.depth : Node → Nat
  | .nil => 0
  | .leaf _ _ => 1
  | .branch _ _ _ l r => 1 + max l.depth r.depth

/-- The height of a subtree measured in edges (0 for nil). -/
def Node.height (t : Node) : Nat := t.depth - 1

/-- The shape of the stack between calls of `Next`: empty, or a chain that starts at
the root in which every element is a child of the one below it and none is nil. -/
def NodeIterator.StackOk (root : Node) (s : List Node) : Prop :=
  s = [] ∨ (s.head? = some root ∧ List.Chain' Node.IsChildOf s ∧ ∀ x ∈ s, x ≠ .nil)

/-- The iterator states between calls of `Next`: the fresh iterator, or a nil
unprocessedRoot with a stack of the shape `StackOk`. -/
def NodeIterator.Inv (root : Node) (i : NodeIterator) : Prop :=
  (i.unprocessedRoot = root ∧ i.stack = []) ∨
    (i.unprocessedRoot = .nil ∧ NodeIterator.StackOk root i.stack)

/-- A call made on the iterator. -/
inductive Call where
  | next : Call
  | value : Call
deriving DecidableEq

/-- The result of a call: the bool of `Next` or the node of `Value`. -/
inductive CallResult where
  | next (b : Bool) : CallResult
  | value (n : Node) : CallResult
deriving DecidableEq

/-- A finite sequence of `Next` and `Value` calls on an iterator: the results in call
order and the final state; `none` when a call panics. -/
def NodeIterator.run : List Call → NodeIterator → Option (List CallResult × NodeIterator)
  | [], i => some ([], i)
  | .next :: cs, i =>
    match i.Next with
    | none => none
    | some (i1, b) =>
      match NodeIterator.run cs i1 with
      | none => none
      | some (rs, i2) => some (.next b :: rs, i2)
  | .value :: cs, i =>
    match i.Value with
    | none => none
    | some v =>
      match NodeIterator.run cs i with
      | none => none
      | some (rs, i2) => some (.value v :: rs, i2)

/-- The bool returned by the most recent call of `Next` among the results, `prev`
when there is none. -/
def CallResult.lastNext (prev : Option Bool) : List CallResult → Option Bool
  | [] => prev
  | .next b :: rs => CallResult.lastNext (some b) rs
  | .value _ :: rs => CallResult.lastNext prev rs

/-- In the sequence `seq` the node `b` comes directly after the node `a`. -/
def Follows (seq : List Node) (a b : Node) : Prop :=
  ∃ k, seq[k]? = some a ∧ seq[k + 1]? = some b

/-! ## leaf.go, branch.go -/

/-- `Leaf.Hash`: returns the stored hash; the height is not used and no field is
assigned. -/
def Leaf.Hash (l : Leaf) (_height : Int) : Bytes32 := l.hash

/-- `Hash` of the `Node` interface, called with a height: the updated node and the
digest, `none` for a panic.
* nil receiver: nil dereference.
* `*Leaf`: `Leaf.Hash`.
* `*Branch`: `Branch.Hash`, with the body of `computeHash` in the dirty case: panic
  when both children are nil; each present child is asked for its hash with the same
  height, an absent one gives `GetDefaultHashForHeight(int(height))`; then
  `b.hash = HashInterNode(lHash, rHash)` and `b.dirty = false`. -/
def Node.Hash (HashInterNode : Bytes32 → Bytes32 → Bytes32) (GetDefaultHashForHeight : Int → Bytes32) :
    Node → Nat → Option (Node × Bytes32)
  | .nil, _ => none
  | .leaf p l, height => some (.leaf p l, l.Hash (height : Int))
  | .branch p hash dirty left right, height =>
    if dirty then
      if left = .nil ∧ right = .nil then none
      else
        let lres : Option (Node × Bytes32) :=
          if left ≠ .nil then Node.Hash HashInterNode GetDefaultHashForHeight left height
          else some (left, GetDefaultHashForHeight (height : Int))
        let rres : Option (Node × Bytes32) :=
          if right ≠ .nil then Node.Hash HashInterNode GetDefaultHashForHeight right height
          else some (right, GetDefaultHashForHeight (height : Int))
        match lres, rres with
        | some (left1, lHash), some (right1, rHash) =>
          some (.branch p (HashInterNode lHash rHash) false left1 right1,
            HashInterNode lHash rHash)
        | _, _ => none
    else
      some (.branch p hash dirty left right, hash)

/-- `computeHash` on a Branch with the given fields: the updated branch, `none` for
the panic. -/
def Node.computeHash (HashInterNode : Bytes32 → Bytes32 → Bytes32)
    (GetDefaultHashForHeight : Int → Bytes32) (p : Nat) (left right : Node) (height : Nat) :
    Option Node :=
  if left = .nil ∧ right = .nil then none
  else
    let lres : Option (Node × Bytes32) :=
      if left ≠ .nil then left.Hash HashInterNode GetDefaultHashForHeight height
      else some (left, GetDefaultHashForHeight (height : Int))
    let rres : Option (Node × Bytes32) :=
      if right ≠ .nil then right.Hash HashInterNode GetDefaultHashForHeight height
      else some (right, GetDefaultHashForHeight (height : Int))
    match lres, rres with
    | some (left1, lHash), some (right1, rHash) =>
      some (.branch p (HashInterNode lHash rHash) false left1 right1)
    | _, _ => none

/-- The assignment `b.dirty = true` on a Branch (a Leaf has no dirty flag). -/
def Node.markDirty : Node → Node
  | .branch p hash _ left right => .branch p hash true left right
  | n => n

/-- Every Branch of the subtree has at least one child. -/
def Node.WellFormed : Node → Prop
  | .nil => True
  | .leaf _ _ => True
  | .branch _ _ _ l r => (l ≠ .nil ∨ r ≠ .nil) ∧ l.WellFormed ∧ r.WellFormed

/-- The stored `hash` field of a node (0 for the nil interface value, which has none). -/
def Node.hashField : Node → Bytes32
  | .nil => 0
  | .leaf _ l => l.hash
  | .branch _ hash _ _ _ => hash

/-- The digest `computeHash` takes for one side of a Branch: the child's `Hash` result
when the child is present, the default hash of the height when it is absent. -/
def Node.sideDigest (HashInterNode : Bytes32 → Bytes32 → Bytes32)
    (GetDefaultHashForHeight : Int → Bytes32) (c : Node) (height : Nat) : Option Bytes32 :=
  if c ≠ .nil then (c.Hash HashInterNode GetDefaultHashForHeight height).map Prod.snd
  else some (GetDefaultHashForHeight (height : Int))

/-- The cached hash of a clean Branch is the interior hash of the digests its children
answer now. Holds of a dirty Branch, of a Leaf and of nil. -/
def Node.CacheValid (HashInterNode : Bytes32 → Bytes32 → Bytes32)
    (GetDefaultHashForHeight : Int → Bytes32) (height : Nat) : Node → Prop
  | .branch _ hash false left right =>
    ∃ lHash rHash,
      left.sideDigest HashInterNode GetDefaultHashForHeight height = some lHash ∧
      right.sideDigest HashInterNode GetDefaultHashForHeight height = some rHash ∧
      hash = HashInterNode lHash rHash
  | _ => True

/-- The reference Merkle hash of a subtree, computed recursively without any cache:
the stored hash for a Leaf, the interior hash of the two children's reference hashes
for a Branch, the default hash of the height for an absent child. -/
def Node.refHash (HashInterNode : Bytes32 → Bytes32 → Bytes32)
    (GetDefaultHashForHeight : Int → Bytes32) (height : Nat) : Node → Bytes32
  | .nil => GetDefaultHashForHeight (height : Int)
  | .leaf _ l => l.hash
  | .branch _ _ _ l r =>
    HashInterNode (Node.refHash HashInterNode GetDefaultHashForHeight height l)
      (Node.refHash HashInterNode GetDefaultHashForHeight height r)

/-! ## pool.go -/

/-- Modelled from the spec: the struct `Extension`, which has no source file ("a shared
path segment, one child, a hash that depends on that child (lazy, dirty-flagged)"). -/
structure Extension where
  hash : Bytes32
  dirty : Bool
  path : Bytes32
  child : Node
deriving DecidableEq

/-- The struct `Branch` of branch.go by value: the contents of the object a
`Node.branch` points to. -/
structure Branch where
  hash : Bytes32
  dirty : Bool
  left : Node
  right : Node
deriving DecidableEq

/-- The zero value `Extension{}`. -/
def Extension.zero : Extension := { hash := 0, dirty := false, path := 0, child := .nil }

/-- The zero value `Branch{}`. -/
def Branch.zero : Branch := { hash := 0, dirty := false, left := .nil, right := .nil }

/-- The zero value `Leaf{}`. -/
def Leaf.zero : Leaf := { hash := 0, path := 0, key := 0 }

/-- Go's `sync.Pool` (standard library) as a free list: the function `New` and the
instances that were put and not yet taken. -/
structure SyncPool (α : Type) where
  New : Unit → α
  items : List α

/-- `sync.Pool.Put`: adds an instance to the available ones. -/
def SyncPool.Put {α : Type} (p : SyncPool α) (x : α) : SyncPool α :=
  { p with items := x :: p.items }

/-- `sync.Pool.Get`: takes an available instance, or calls `New` when there is none. -/
def SyncPool.Get {α : Type} (p : SyncPool α) : α × SyncPool α :=
  match p.items with
  | [] => (p.New (), p)
  | x :: xs => (x, { p with items := xs })

/-- The struct `Pool` of pool.go. -/
structure Pool where
  extensions : SyncPool Extension
  branches : SyncPool Branch
  leaves : SyncPool Leaf

/-- The loop `for i := 0; i < number; i++` of `NewPool`, from the value `i` on: each
round puts one new instance into each of the three pools. -/
def NewPool.loop (number : Int) (i : Int) (ePool : SyncPool Extension)
    (bPool : SyncPool Branch) (lPool : SyncPool Leaf) :
    SyncPool Extension × SyncPool Branch × SyncPool Leaf :=
  if i < number then
    NewPool.loop number (i + 1) (ePool.Put (ePool.New ())) (bPool.Put (bPool.New ()))
      (lPool.Put (lPool.New ()))
  else
    (ePool, bPool, lPool)
termination_by (number - i).toNat
decreasing_by omega

/-- `NewPool`: three pools whose `New` returns a zero-valued instance, pre-filled by
the loop. -/
def NewPool (number : Int) : Pool :=
  let ePool : SyncPool Extension := { New := fun _ => Extension.zero, items := [] }
  let bPool : SyncPool Branch := { New := fun _ => Branch.zero, items := [] }
  let lPool : SyncPool Leaf := { New := fun _ => Leaf.zero, items := [] }
  let r := NewPool.loop number 0 ePool bPool lPool
  { extensions := r.1, branches := r.2.1, leaves := r.2.2 }

/-! ## sample data -/

/-- A sample interior-hash function. -/
def sampleInter (a b : Bytes32) : Bytes32 := 2 * a + 3 * b + 1

/-- A sample default-hash table. -/
def sampleDefault (h : Int) : Bytes32 := h.toNat + 100

/-- A three-leaf trie: `branch 0 (branch 1 (leaf 2) (leaf 3)) (branch 4 nil (leaf 5))`. -/
def sampleTrie : Node :=
  .branch 0 0 true
    (.branch 1 0 true (.leaf 2 ⟨11, 0, 0⟩) (.leaf 3 ⟨12, 1, 1⟩))
    (.branch 4 0 true .nil (.leaf 5 ⟨13, 2, 2⟩))

/-- A well-formed trie whose clean root holds a cached hash (7) that is not the
interior hash of its children: `branch 0 (leaf 1) nil`. -/
def staleTrie : Node :=
  .branch 0 7 false (.leaf 1 ⟨1, 0, 0⟩) .nil

/-- The dirty flag of a node; false for a Leaf and for nil, which have none. -/
def Node.isDirty : Node → Bool
  | .branch _ _ dirty _ _ => dirty
  | _ => false

/-- The node reached from `t` along a path of child choices (`false`: LeftChild,
`true`: RightChild); nil when the path leaves the trie. -/
def Node.subAt : List Bool → Node → Node
  | [], t => t
  | false :: path, t => Node.subAt path t.LeftChild
  | true :: path, t => Node.subAt path t.RightChild

/-- The call `n.Hash(height)` on the node `n` that sits at the given path below the
root `t`: the whole trie after the call and the digest returned. `none` when the call
panics or the path leads to no node. -/
def Node.HashAt (HashInterNode : Bytes32 → Bytes32 → Bytes32)
    (GetDefaultHashForHeight : Int → Bytes32) (height : Nat) :
    List Bool → Node → Option (Node × Bytes32)
  | [], t => t.Hash HashInterNode GetDefaultHashForHeight height
  | false :: path, .branch p x d l r =>
    (Node.HashAt HashInterNode GetDefaultHashForHeight height path l).map
      (fun q => (.branch p x d q.1 r, q.2))
  | true :: path, .branch p x d l r =>
    (Node.HashAt HashInterNode GetDefaultHashForHeight height path r).map
      (fun q => (.branch p x d l q.1, q.2))
  | _ :: _, _ => none

/-- Every Branch of the trie is valid: dirty, or with a cached hash that is the
interior hash of what its children answer. -/
def Node.AllValid (HashInterNode : Bytes32 → Bytes32 → Bytes32)
    (GetDefaultHashForHeight : Int → Bytes32) (height : Nat) (t : Node) : Prop :=
  ∀ n ∈ t.nodes, n.CacheValid HashInterNode GetDefaultHashForHeight height

/-- A trie with a clean, valid root over a dirty branch:
`branch 0 (branch 1 (leaf 2) nil) (leaf 3)`, hashes for height 3 and the sample
functions. -/
def validTrie : Node :=
  .branch 0 701 false (.branch 1 0 true (.leaf 2 ⟨11, 0, 0⟩) .nil) (.leaf 3 ⟨12, 1, 1⟩)

/-- A trie with a dirty root over a clean Branch that caches its reference hash (59
for the sample functions): `branch 0 (branch 1 (leaf 2) (leaf 3)) (leaf 4)`. -/
def mixedTrie : Node :=
  .branch 0 0 true (.branch 1 59 false (.leaf 2 ⟨11, 0, 0⟩) (.leaf 3 ⟨12, 1, 1⟩))
    (.leaf 4 ⟨13, 2, 2⟩)

/-- `k` nested dirty Branches over `c`, each with its one child on the left. -/
def Node.leftChain : Nat → Node → Node
  | 0, c => c
  | k + 1, c => .branch k 0 true (Node.leftChain k c) .nil

/-- `k` nested dirty Branches over `c`, each with its one child on the right. -/
def Node.rightChain : Nat → Node → Node
  | 0, c => c
  | k + 1, c => .branch k 0 true .nil (Node.rightChain k c)

/-! ## models/convert/types.go -/

/-- `flow.EventType` of the flow-go library, a named string type; `val` is the string
the conversion `string(typ)` gives. -/
structure EventType where
  val : String
deriving DecidableEq

/-- `TypesToStrings`: starts from an empty slice and appends `string(typ)` for each
element of the input, in order. -/
def TypesToStrings (types : List EventType) : List String :=
  types.foldl (fun ss typ => ss ++ [typ.val]) []

/-! ## the iterator: auxiliary facts -/

theorem NodeIterator.Emits.append {i j k : NodeIterator} {vs ws : List Node}
    (h1 : NodeIterator.Emits i vs j) (h2 : NodeIterator.Emits j ws k) :
    NodeIterator.Emits i (vs ++ ws) k := by
  induction h1 with
  | done i => simpa using h2
  | step hn hv _ ih => exact NodeIterator.Emits.step hn hv (ih h2)

theorem NodeIterator.Emits.one {i j : NodeIterator} {v : Node}
    (hn : i.Next = some (j, true)) (hv : j.Value = some v) :
    NodeIterator.Emits i [v] j :=
  NodeIterator.Emits.step hn hv (NodeIterator.Emits.done j)

theorem NodeIterator.pop_concat (u : Node) (s : List Node) (n : Node) :
    (NodeIterator.mk u (s ++ [n])).pop = (NodeIterator.mk u s, n) := by
  simp [NodeIterator.pop]

theorem NodeIterator.peek_concat (u : Node) (s : List Node) (n : Node) :
    (NodeIterator.mk u (s ++ [n])).peek = some n := by
  simp [NodeIterator.peek]

theorem NodeIterator.Value_concat (u : Node) (s : List Node) (n : Node) :
    (NodeIterator.mk u (s ++ [n])).Value = some n := by
  simp [NodeIterator.Value, NodeIterator.peek]

theorem NodeIterator.Next_last (n : Node) :
    (NodeIterator.mk .nil [n]).Next = some (NodeIterator.mk .nil [], false) := by
  have h := NodeIterator.pop_concat .nil [] n
  simp only [List.nil_append] at h
  simp [NodeIterator.Next, h]

theorem NodeIterator.Next_child (s : List Node) (p n : Node) :
    (NodeIterator.mk .nil (s ++ [p] ++ [n])).Next =
      if p.LeftChild.same n then some ((NodeIterator.mk .nil (s ++ [p])).dig p.RightChild, true)
      else some (NodeIterator.mk .nil (s ++ [p]), true) := by
  have h := NodeIterator.pop_concat .nil (s ++ [p]) n
  simp only [NodeIterator.Next, h]
  simp [NodeIterator.peek_concat]

theorem Node.same_self (n : Node) : n.same n = true := by
  cases n <;> simp [Node.same]

theorem Node.same_nil_left {n : Node} (h : n ≠ .nil) : Node.same .nil n = false := by
  cases n <;> simp_all [Node.same]

theorem Node.mem_nodes_self {n : Node} (h : n ≠ .nil) : n ∈ n.nodes := by
  cases n <;> simp_all [Node.nodes]

theorem Node.IsTree.branch {p : Nat} {h : Bytes32} {d : Bool} {l r : Node}
    (ht : (Node.branch p h d l r).IsTree) :
    l.IsTree ∧ r.IsTree ∧ (r ≠ .nil → l.same r = false) := by
  unfold Node.IsTree at ht ⊢
  simp only [Node.nodes, List.pairwise_cons, List.pairwise_append] at ht
  refine ⟨ht.2.1, ht.2.2.1, fun hr => ?_⟩
  by_cases hl : l = .nil
  · subst hl; exact Node.same_nil_left hr
  · exact ht.2.2.2 l (Node.mem_nodes_self hl) r (Node.mem_nodes_self hr)

/-- The part of the traversal that belongs to one subtree: if a call of `Next` digs
into the non-nil subtree `t` on top of the stack `s`, the iterator emits the post-order
of `t` and is left with `t` on top of `s`. -/
theorem NodeIterator.emits_subtree (t : Node) :
    t ≠ .nil → t.IsTree → ∀ (s : List Node) (i : NodeIterator),
      i.Next = some ((NodeIterator.mk .nil s).dig t, true) →
      NodeIterator.Emits i t.postorder (NodeIterator.mk .nil (s ++ [t])) := by
  induction t with
  | nil => intro h; exact absurd rfl h
  | leaf p l =>
    intro _ _ s i hn
    simp only [NodeIterator.dig] at hn
    exact NodeIterator.Emits.one hn (NodeIterator.Value_concat _ _ _)
  | branch p h d l r ihl ihr =>
    intro _ ht s i hn
    obtain ⟨htl, htr, hlr⟩ := ht.branch
    have hpop : (NodeIterator.mk .nil (s ++ [Node.branch p h d l r])).Value
        = some (Node.branch p h d l r) := NodeIterator.Value_concat _ _ _
    by_cases hl : l = .nil
    · by_cases hr : r = .nil
      · subst hl hr
        simp only [NodeIterator.dig, ne_eq, not_true_eq_false, if_false] at hn
        simpa [Node.postorder] using NodeIterator.Emits.one hn hpop
      · subst hl
        simp only [NodeIterator.dig, ne_eq, not_true_eq_false, if_false, hr,
          not_false_eq_true, if_true] at hn
        have e1 := ihr hr htr _ i hn
        have hstep : (NodeIterator.mk .nil (s ++ [Node.branch p h d .nil r] ++ [r])).Next
            = some (NodeIterator.mk .nil (s ++ [Node.branch p h d .nil r]), true) := by
          rw [NodeIterator.Next_child]
          simp [Node.LeftChild, Node.same_nil_left hr]
        simpa [Node.postorder] using e1.append (NodeIterator.Emits.one hstep hpop)
    · simp only [NodeIterator.dig, ne_eq, hl, not_false_eq_true, if_true] at hn
      have e1 := ihl hl htl _ i hn
      by_cases hr : r = .nil
      · subst hr
        have hstep : (NodeIterator.mk .nil (s ++ [Node.branch p h d l .nil] ++ [l])).Next
            = some (NodeIterator.mk .nil (s ++ [Node.branch p h d l .nil]), true) := by
          rw [NodeIterator.Next_child]
          simp [Node.LeftChild, Node.RightChild, Node.same_self, NodeIterator.dig]
        simpa [Node.postorder] using e1.append (NodeIterator.Emits.one hstep hpop)
      · have hdig : (NodeIterator.mk .nil (s ++ [Node.branch p h d l r] ++ [l])).Next
            = some ((NodeIterator.mk .nil (s ++ [Node.branch p h d l r])).dig r, true) := by
          rw [NodeIterator.Next_child]
          simp [Node.LeftChild, Node.RightChild, Node.same_self]
        have e2 := ihr hr htr _ _ hdig
        have hstep : (NodeIterator.mk .nil (s ++ [Node.branch p h d l r] ++ [r])).Next
            = some (NodeIterator.mk .nil (s ++ [Node.branch p h d l r]), true) := by
          rw [NodeIterator.Next_child]
          simp [Node.LeftChild, hlr hr]
        simpa [Node.postorder] using
          (e1.append e2).append (NodeIterator.Emits.one hstep hpop)

theorem NodeIterator.dig_unprocessedRoot (t : Node) :
    ∀ (u v : Node) (s : List Node),
      { (NodeIterator.mk u s).dig t with unprocessedRoot := v } = (NodeIterator.mk v s).dig t := by
  induction t with
  | nil => intro u v s; rfl
  | leaf p l => intro u v s; rfl
  | branch p h d l r ihl ihr =>
    intro u v s
    simp only [NodeIterator.dig]
    split
    · exact ihl _ _ _
    · split
      · exact ihr _ _ _
      · rfl

theorem NodeIterator.Next_fresh {t : Node} (ht : t ≠ .nil) :
    (NewNodeIterator ⟨t⟩).Next = some ((NodeIterator.mk .nil []).dig t, true) := by
  simp [NewNodeIterator, Trie.RootNode, NodeIterator.Next, ht,
    NodeIterator.dig_unprocessedRoot]

theorem NodeIterator.Next_done :
    (NodeIterator.mk .nil []).Next = some (NodeIterator.mk .nil [], false) := by
  decide

/-- On a fresh iterator over a non-empty tree the calls of `Next` emit the post-order
of the trie and leave the root alone on the stack. -/
theorem NodeIterator.emits_fresh {t : Node} (hn : t ≠ .nil) (ht : t.IsTree) :
    NodeIterator.Emits (NewNodeIterator ⟨t⟩) t.postorder (NodeIterator.mk .nil [t]) := by
  simpa using NodeIterator.emits_subtree t hn ht [] _ (NodeIterator.Next_fresh hn)

theorem NodeIterator.drain_of_emits {i j j1 : NodeIterator} {vs : List Node}
    (h : NodeIterator.Emits i vs j) (hj : j.Next = some (j1, false)) :
    ∀ fuel, vs.length < fuel → i.drain fuel = some vs := by
  induction h with
  | done i =>
    intro fuel hf
    cases fuel with
    | zero => omega
    | succ f => simp [NodeIterator.drain, hj]
  | step hn hv _ ih =>
    intro fuel hf
    cases fuel with
    | zero => omega
    | succ f =>
      have := ih hj f (by simpa using hf)
      simp [NodeIterator.drain, hn, hv, this]

theorem NodeIterator.NextTimes_of_emits {i j : NodeIterator} {vs : List Node}
    (h : NodeIterator.Emits i vs j) :
    i.NextTimes vs.length = some (List.replicate vs.length true, j) := by
  induction h with
  | done i => rfl
  | step hn _ _ ih => simp [NodeIterator.NextTimes, hn, ih, List.replicate_succ]

theorem NodeIterator.NextTimes_add (a b : Nat) :
    ∀ (i j k : NodeIterator) (xs ys : List Bool),
      i.NextTimes a = some (xs, j) → j.NextTimes b = some (ys, k) →
      i.NextTimes (a + b) = some (xs ++ ys, k) := by
  induction a with
  | zero =>
    intro i j k xs ys h1 h2
    simp only [NodeIterator.NextTimes, Option.some.injEq, Prod.mk.injEq] at h1
    obtain ⟨rfl, rfl⟩ := h1
    simpa using h2
  | succ a ih =>
    intro i j k xs ys h1 h2
    rw [Nat.add_right_comm]
    simp only [NodeIterator.NextTimes] at h1 ⊢
    cases hn : i.Next with
    | none => simp [hn] at h1
    | some r =>
      obtain ⟨i1, b1⟩ := r
      simp only [hn] at h1 ⊢
      cases hr : i1.NextTimes a with
      | none => simp [hr] at h1
      | some q =>
        obtain ⟨bs, i2⟩ := q
        simp only [hr, Option.some.injEq, Prod.mk.injEq] at h1
        obtain ⟨rfl, rfl⟩ := h1
        simp [ih i1 i2 k bs ys hr h2]

theorem NodeIterator.NextTimes_done (k : Nat) :
    (NodeIterator.mk .nil []).NextTimes k
      = some (List.replicate k false, NodeIterator.mk .nil []) := by
  induction k with
  | zero => rfl
  | succ k ih => simp [NodeIterator.NextTimes, NodeIterator.Next_done, ih, List.replicate_succ]

/-- The sequence a fresh iterator emits over a tree is the post-order of the tree. -/
theorem NodeIterator.drain_fresh (t : Node) (ht : t.IsTree) (fuel : Nat)
    (hf : t.size < fuel) : (NewNodeIterator ⟨t⟩).drain fuel = some t.postorder := by
  by_cases hn : t = .nil
  · subst hn
    cases fuel with
    | zero => simp [Node.size] at hf
    | succ f => rfl
  · have hlen : t.postorder.length < fuel := by
      have : t.postorder.length = t.size := by
        clear hn ht hf
        induction t with
        | nil => rfl
        | leaf p l => rfl
        | branch p h d l r ihl ihr => simp [Node.postorder, Node.size, ihl, ihr]; omega
      omega
    exact NodeIterator.drain_of_emits (NodeIterator.emits_fresh hn ht)
      (NodeIterator.Next_last t) fuel hlen

theorem Node.length_postorder (t : Node) : t.postorder.length = t.size := by
  induction t with
  | nil => rfl
  | leaf p l => rfl
  | branch p h d l r ihl ihr => simp [Node.postorder, Node.size, ihl, ihr]; omega

theorem Node.postorder_perm_nodes (t : Node) : t.postorder.Perm t.nodes := by
  induction t with
  | nil => exact List.Perm.refl _
  | leaf p l => exact List.Perm.refl _
  | branch p h d l r ihl ihr =>
    simp only [Node.postorder, Node.nodes]
    refine (List.perm_append_singleton _ _).trans (List.Perm.cons _ ?_)
    exact ihl.append ihr

theorem Node.IsTree.nodup_nodes {t : Node} (ht : t.IsTree) : t.nodes.Nodup := by
  unfold Node.IsTree at ht
  refine List.Pairwise.imp ?_ ht
  intro a b hab heq
  subst heq
  simp [Node.same_self] at hab

theorem descendantsFirst_append {xs ys : List Node} (hx : DescendantsFirst xs)
    (hy : DescendantsFirst ys) : DescendantsFirst (xs ++ ys) := by
  intro k n hk d hd
  by_cases hlt : k < xs.length
  · rw [List.getElem?_append_left hlt] at hk
    obtain ⟨j, hj, hjd⟩ := hx k n hk d hd
    exact ⟨j, hj, by rw [List.getElem?_append_left (by omega)]; exact hjd⟩
  · rw [List.getElem?_append_right (by omega)] at hk
    obtain ⟨j, hj, hjd⟩ := hy _ n hk d hd
    refine ⟨xs.length + j, by omega, ?_⟩
    rw [List.getElem?_append_right (by omega)]
    simpa using hjd

theorem descendantsFirst_concat {xs : List Node} {n : Node} (hx : DescendantsFirst xs)
    (hn : ∀ d ∈ n.descendants, d ∈ xs) : DescendantsFirst (xs ++ [n]) := by
  intro k m hk d hd
  by_cases hlt : k < xs.length
  · rw [List.getElem?_append_left hlt] at hk
    obtain ⟨j, hj, hjd⟩ := hx k m hk d hd
    exact ⟨j, hj, by rw [List.getElem?_append_left (by omega)]; exact hjd⟩
  · rw [List.getElem?_append_right (by omega)] at hk
    have hk0 : k - xs.length = 0 := by
      by_contra hne
      have : ([n] : List Node)[k - xs.length]? = none := by
        apply List.getElem?_eq_none; simp; omega
      rw [this] at hk; cases hk
    rw [hk0] at hk
    simp only [List.getElem?_cons_zero, Option.some.injEq] at hk
    subst hk
    obtain ⟨j, hj, hjd⟩ := List.getElem_of_mem (hn d hd)
    refine ⟨j, by omega, ?_⟩
    rw [List.getElem?_append_left hj, List.getElem?_eq_getElem hj, hjd]

theorem Node.descendantsFirst_postorder (t : Node) : DescendantsFirst t.postorder := by
  induction t with
  | nil => intro k n hk; simp [Node.postorder] at hk
  | leaf p l =>
    intro k n hk d hd
    simp only [Node.postorder] at hk
    cases k with
    | zero =>
      simp only [List.getElem?_cons_zero, Option.some.injEq] at hk
      subst hk
      simp [Node.descendants, Node.LeftChild, Node.RightChild, Node.nodes] at hd
    | succ k => simp at hk
  | branch p h d l r ihl ihr =>
    simp only [Node.postorder]
    refine descendantsFirst_concat (descendantsFirst_append ihl ihr) ?_
    intro x hx
    simp only [Node.descendants, Node.LeftChild, Node.RightChild, List.mem_append] at hx
    simp only [List.mem_append]
    rcases hx with hx | hx
    · exact Or.inl ((Node.postorder_perm_nodes l).mem_iff.mpr hx)
    · exact Or.inr ((Node.postorder_perm_nodes r).mem_iff.mpr hx)

/-- Why the nodes have to be distinct objects: when the two child references of a
Branch are one and the same object, `parent.LeftChild() == n` holds each time that
child is popped, `Next` digs into it again, and the consumer loop never ends. -/
theorem NodeIterator.drain_shared_child (fuel : Nat) :
    (NodeIterator.mk .nil
      [Node.branch 0 0 true (.leaf 1 ⟨1, 0, 0⟩) (.leaf 1 ⟨1, 0, 0⟩), .leaf 1 ⟨1, 0, 0⟩]).drain fuel
      = none := by
  induction fuel with
  | zero => rfl
  | succ f ih =>
    have hn : (NodeIterator.mk .nil
        [Node.branch 0 0 true (.leaf 1 ⟨1, 0, 0⟩) (.leaf 1 ⟨1, 0, 0⟩), .leaf 1 ⟨1, 0, 0⟩]).Next
        = some (NodeIterator.mk .nil
          [Node.branch 0 0 true (.leaf 1 ⟨1, 0, 0⟩) (.leaf 1 ⟨1, 0, 0⟩), .leaf 1 ⟨1, 0, 0⟩],
          true) := by decide
    simp [NodeIterator.drain, hn, ih]

/-! ## the iterator: claims -/

/-- C1 (descendants-first order). For every trie whose nodes are distinct objects, the
consumer loop over a fresh NodeIterator ends (any fuel above the node count is enough)
and, in the sequence of emitted nodes, every descendant of the node at index `k`
occurs at an index strictly smaller than `k`. -/
theorem C1_descendants_first (tr : Trie) (ht : tr.root.IsTree) (fuel : Nat)
    (hf : tr.root.size < fuel) :
    ∃ seq, (NewNodeIterator tr).drain fuel = some seq ∧
      ∀ (k : Nat) (n : Node), seq[k]? = some n →
        ∀ d ∈ n.descendants, ∃ j, j < k ∧ seq[j]? = some d :=
  ⟨tr.root.postorder, NodeIterator.drain_fresh tr.root ht fuel hf,
    Node.descendantsFirst_postorder tr.root⟩

theorem C1_descendants_first_witness :
    (Trie.mk sampleTrie).root.IsTree ∧ (Trie.mk sampleTrie).root.size < 7 ∧
    ∃ seq, (NewNodeIterator (Trie.mk sampleTrie)).drain 7 = some seq ∧
      ∀ (k : Nat) (n : Node), seq[k]? = some n →
        ∀ d ∈ n.descendants, ∃ j, j < k ∧ seq[j]? = some d :=
  ⟨by decide, by decide, C1_descendants_first (Trie.mk sampleTrie) (by decide) 7 (by decide)⟩

/-- C2 (termination and completeness). For every trie with `N` nodes, all distinct
objects, the first `N` calls of `Next` on a fresh NodeIterator return true and call
`N + 1` returns false, leaving an empty stack; the emitted sequence has length `N`, is
a rearrangement of the nodes of the trie and has no repetition. -/
theorem C2_termination_completeness (tr : Trie) (ht : tr.root.IsTree) :
    (NewNodeIterator tr).NextTimes (tr.root.size + 1)
        = some (List.replicate tr.root.size true ++ [false], NodeIterator.mk .nil []) ∧
    ∃ seq, (NewNodeIterator tr).drain (tr.root.size + 1) = some seq ∧
      seq.length = tr.root.size ∧ seq.Perm tr.root.nodes ∧ seq.Nodup := by
  obtain ⟨t⟩ := tr
  refine ⟨?_, t.postorder, NodeIterator.drain_fresh t ht _ (Nat.lt_succ_self _),
    Node.length_postorder t, Node.postorder_perm_nodes t,
    (Node.postorder_perm_nodes t).nodup_iff.mpr ht.nodup_nodes⟩
  by_cases hn : t = .nil
  · subst hn; rfl
  · have h1 := NodeIterator.NextTimes_of_emits (NodeIterator.emits_fresh hn ht)
    have h2 : (NodeIterator.mk .nil [t]).NextTimes 1
        = some ([false], NodeIterator.mk .nil []) := by
      simp [NodeIterator.NextTimes, NodeIterator.Next_last]
    have h3 := NodeIterator.NextTimes_add _ _ _ _ _ _ _ h1 h2
    rw [Node.length_postorder] at h3
    exact h3

theorem C2_termination_completeness_witness :
    (Trie.mk sampleTrie).root.IsTree ∧
    (NewNodeIterator (Trie.mk sampleTrie)).NextTimes ((Trie.mk sampleTrie).root.size + 1)
        = some (List.replicate (Trie.mk sampleTrie).root.size true ++ [false],
            NodeIterator.mk .nil []) ∧
    ∃ seq, (NewNodeIterator (Trie.mk sampleTrie)).drain ((Trie.mk sampleTrie).root.size + 1)
        = some seq ∧
      seq.length = (Trie.mk sampleTrie).root.size ∧
      seq.Perm (Trie.mk sampleTrie).root.nodes ∧ seq.Nodup :=
  ⟨by decide, C2_termination_completeness (Trie.mk sampleTrie) (by decide)⟩

/-- C3 (empty trie). For an iterator created over a trie whose root node is nil:
`Value` returns nil before the first call of `Next`, that call returns false, `Value`
returns nil after it, and the consumer loop emits nothing. -/
theorem C3_empty_trie (tr : Trie) (h : tr.RootNode = .nil) :
    (NewNodeIterator tr).Value = some .nil ∧
    ∃ i1, (NewNodeIterator tr).Next = some (i1, false) ∧ i1.Value = some .nil ∧
      ∀ fuel, (NewNodeIterator tr).drain (fuel + 1) = some [] := by
  obtain ⟨t⟩ := tr
  simp only [Trie.RootNode] at h
  subst h
  exact ⟨rfl, NodeIterator.mk .nil [], rfl, rfl, fun _ => rfl⟩

theorem C3_empty_trie_witness :
    (Trie.mk .nil).RootNode = .nil ∧
    (NewNodeIterator (Trie.mk .nil)).Value = some .nil ∧
    ∃ i1, (NewNodeIterator (Trie.mk .nil)).Next = some (i1, false) ∧ i1.Value = some .nil ∧
      ∀ fuel, (NewNodeIterator (Trie.mk .nil)).drain (fuel + 1) = some [] :=
  ⟨rfl, C3_empty_trie (Trie.mk .nil) rfl⟩

/-- C4 (single pass). In whatever state a call of `Next` returns false, it leaves the
iterator with an empty stack and a nil unprocessedRoot; from then on `Value` returns
nil and every further call of `Next` returns false and leaves that state as it is. -/
theorem C4_single_pass (i i1 : NodeIterator) (h : i.Next = some (i1, false)) :
    i1.stack = [] ∧ i1.unprocessedRoot = .nil ∧ i1.Value = some .nil ∧
    ∀ k, i1.NextTimes k = some (List.replicate k false, i1) := by
  have hi1 : i1 = NodeIterator.mk .nil [] := by
    obtain ⟨u, s⟩ := i
    unfold NodeIterator.Next at h
    by_cases hu : u = .nil
    · subst hu
      simp only [ne_eq, not_true_eq_false, if_false] at h
      rcases List.eq_nil_or_concat s with hs | ⟨s1, n, hs⟩
      · subst hs
        simpa [NodeIterator.pop] using h.symm
      · subst hs
        rw [List.concat_eq_append, NodeIterator.pop_concat] at h
        simp only [gt_iff_lt] at h
        split at h
        · split at h
          · cases h
          · split at h <;> simp at h
        · rename_i hlen
          have : s1 = [] := by
            cases s1 with
            | nil => rfl
            | cons a b => simp at hlen
          subst this
          simpa using h.symm
    · simp [hu] at h
  subst hi1
  exact ⟨rfl, rfl, rfl, NodeIterator.NextTimes_done⟩

theorem C4_single_pass_witness :
    (NodeIterator.mk .nil [sampleTrie]).Next = some (NodeIterator.mk .nil [], false) ∧
    (NodeIterator.mk .nil []).stack = [] ∧
    (NodeIterator.mk .nil []).unprocessedRoot = .nil ∧
    (NodeIterator.mk .nil []).Value = some .nil ∧
    ∀ k, (NodeIterator.mk .nil []).NextTimes k
      = some (List.replicate k false, NodeIterator.mk .nil []) :=
  ⟨by decide, C4_single_pass (NodeIterator.mk .nil [sampleTrie]) (NodeIterator.mk .nil [])
    (by decide)⟩

/-! ## hashing: auxiliary facts -/

/-- `Branch.Hash` as branch.go writes it: `computeHash` when dirty, then the stored
hash is returned. -/
theorem Node.Hash_branch (H : Bytes32 → Bytes32 → Bytes32) (D : Int → Bytes32)
    (p : Nat) (x : Bytes32) (dirty : Bool) (l r : Node) (h : Nat) :
    (Node.branch p x dirty l r).Hash H D h =
      if dirty then (Node.computeHash H D p l r h).map (fun b => (b, b.hashField))
      else some (Node.branch p x dirty l r, x) := by
  cases dirty
  · simp [Node.Hash]
  · simp only [Node.Hash, Node.computeHash, if_true]
    split
    · rfl
    · split <;> simp_all [Node.hashField]

theorem Node.Hash_clean (H : Bytes32 → Bytes32 → Bytes32) (D : Int → Bytes32)
    (p : Nat) (x : Bytes32) (l r : Node) (h : Nat) :
    (Node.branch p x false l r).Hash H D h = some (Node.branch p x false l r, x) := by
  simp [Node.Hash]

theorem Node.Hash_idem (H : Bytes32 → Bytes32 → Bytes32) (D : Int → Bytes32)
    {t t1 : Node} {d : Bytes32} {h : Nat} (ht : t.Hash H D h = some (t1, d)) :
    t1.Hash H D h = some (t1, d) := by
  cases t with
  | nil => simp [Node.Hash] at ht
  | leaf p l =>
    simp only [Node.Hash, Option.some.injEq, Prod.mk.injEq] at ht
    obtain ⟨rfl, rfl⟩ := ht
    rfl
  | branch p x dirty l r =>
    cases dirty
    · simp only [Node.Hash, Bool.false_eq_true, if_false, Option.some.injEq,
        Prod.mk.injEq] at ht
      obtain ⟨rfl, rfl⟩ := ht
      simp [Node.Hash]
    · simp only [Node.Hash, if_true] at ht
      split at ht
      · cases ht
      · split at ht
        · simp only [Option.some.injEq, Prod.mk.injEq] at ht
          obtain ⟨rfl, rfl⟩ := ht
          simp [Node.Hash]
        · cases ht

theorem Node.Hash_same (H : Bytes32 → Bytes32 → Bytes32) (D : Int → Bytes32)
    {t t1 : Node} {d : Bytes32} {h : Nat} (ht : t.Hash H D h = some (t1, d)) :
    t1.same t = true := by
  cases t with
  | nil => simp [Node.Hash] at ht
  | leaf p l =>
    simp only [Node.Hash, Option.some.injEq, Prod.mk.injEq] at ht
    obtain ⟨rfl, rfl⟩ := ht
    simp [Node.same]
  | branch p x dirty l r =>
    cases dirty
    · simp only [Node.Hash, Bool.false_eq_true, if_false, Option.some.injEq,
        Prod.mk.injEq] at ht
      obtain ⟨rfl, rfl⟩ := ht
      simp [Node.same]
    · simp only [Node.Hash, if_true] at ht
      split at ht
      · cases ht
      · split at ht
        · simp only [Option.some.injEq, Prod.mk.injEq] at ht
          obtain ⟨rfl, rfl⟩ := ht
          simp [Node.same]
        · cases ht

theorem Node.same_nil_iff {a b : Node} (h : a.same b = true) : a = .nil ↔ b = .nil := by
  cases a <;> cases b <;> simp_all [Node.same]

theorem Node.Hash_ne_nil (H : Bytes32 → Bytes32 → Bytes32) (D : Int → Bytes32)
    {t t1 : Node} {d : Bytes32} {h : Nat} (ht : t.Hash H D h = some (t1, d)) :
    t ≠ .nil ∧ t1 ≠ .nil := by
  have h0 : t ≠ .nil := by
    intro h0; subst h0; simp [Node.Hash] at ht
  exact ⟨h0, fun h1 => h0 ((Node.same_nil_iff (Node.Hash_same H D ht)).mp h1)⟩

/-- What `Hash` does on a dirty Branch, given what its two sides answer. -/
theorem Node.Hash_dirty (H : Bytes32 → Bytes32 → Bytes32) (D : Int → Bytes32)
    (p : Nat) (x : Bytes32) (l r : Node) (h : Nat) (l1 r1 : Node) (lHash rHash : Bytes32)
    (hc : l ≠ .nil ∨ r ≠ .nil)
    (hl : l ≠ .nil → l.Hash H D h = some (l1, lHash))
    (hl0 : l = .nil → l1 = .nil ∧ lHash = D (h : Int))
    (hr : r ≠ .nil → r.Hash H D h = some (r1, rHash))
    (hr0 : r = .nil → r1 = .nil ∧ rHash = D (h : Int)) :
    (Node.branch p x true l r).Hash H D h
      = some (Node.branch p (H lHash rHash) false l1 r1, H lHash rHash) := by
  have hnot : ¬ (l = .nil ∧ r = .nil) := by
    rintro ⟨a, b⟩; rcases hc with c | c
    · exact c a
    · exact c b
  by_cases hln : l = .nil
  · obtain ⟨e1, e2⟩ := hl0 hln
    have hrn : r ≠ .nil := fun b => hnot ⟨hln, b⟩
    subst hln e1 e2
    simp [Node.Hash, hrn, hr hrn]
  · by_cases hrn : r = .nil
    · obtain ⟨e1, e2⟩ := hr0 hrn
      subst hrn e1 e2
      simp [Node.Hash, hln, hl hln]
    · simp [Node.Hash, hln, hrn, hl hln, hr hrn]

/-- On a trie in which every Branch has a child, `Hash` on a non-nil node returns. -/
theorem Node.Hash_total (H : Bytes32 → Bytes32 → Bytes32) (D : Int → Bytes32) (h : Nat)
    (t : Node) : t.WellFormed → t ≠ .nil → ∃ t1 d, t.Hash H D h = some (t1, d) := by
  induction t with
  | nil => intro _ hn; exact absurd rfl hn
  | leaf p l => intro _ _; exact ⟨_, _, rfl⟩
  | branch p x dirty l r ihl ihr =>
    intro hw _
    obtain ⟨hc, hwl, hwr⟩ := hw
    cases dirty
    · exact ⟨Node.branch p x false l r, x, by simp [Node.Hash]⟩
    · have hL : ∃ l1 lHash, (l ≠ .nil → l.Hash H D h = some (l1, lHash)) ∧
          (l = .nil → l1 = .nil ∧ lHash = D (h : Int)) := by
        by_cases hln : l = .nil
        · exact ⟨.nil, D (h : Int), fun c => absurd hln c, fun _ => ⟨rfl, rfl⟩⟩
        · obtain ⟨l1, lh, e⟩ := ihl hwl hln
          exact ⟨l1, lh, fun _ => e, fun c => absurd c hln⟩
      have hR : ∃ r1 rHash, (r ≠ .nil → r.Hash H D h = some (r1, rHash)) ∧
          (r = .nil → r1 = .nil ∧ rHash = D (h : Int)) := by
        by_cases hrn : r = .nil
        · exact ⟨.nil, D (h : Int), fun c => absurd hrn c, fun _ => ⟨rfl, rfl⟩⟩
        · obtain ⟨r1, rh, e⟩ := ihr hwr hrn
          exact ⟨r1, rh, fun _ => e, fun c => absurd c hrn⟩
      obtain ⟨l1, lh, hl, hl0⟩ := hL
      obtain ⟨r1, rh, hr, hr0⟩ := hR
      exact ⟨_, _, Node.Hash_dirty H D p x l r h l1 r1 lh rh hc hl hl0 hr hr0⟩

/-- One side of a Branch of a well-formed trie always answers `computeHash`. -/
theorem Node.side_total (H : Bytes32 → Bytes32 → Bytes32) (D : Int → Bytes32) (h : Nat)
    (c : Node) (hw : c.WellFormed) :
    ∃ c1 cHash, (c ≠ .nil → c.Hash H D h = some (c1, cHash)) ∧
      (c = .nil → c1 = .nil ∧ cHash = D (h : Int)) := by
  by_cases hc : c = .nil
  · exact ⟨.nil, D (h : Int), fun e => absurd hc e, fun _ => ⟨rfl, rfl⟩⟩
  · obtain ⟨c1, ch, e⟩ := Node.Hash_total H D h c hw hc
    exact ⟨c1, ch, fun _ => e, fun e0 => absurd e0 hc⟩

theorem Node.side_of_digest (H : Bytes32 → Bytes32 → Bytes32) (D : Int → Bytes32) (h : Nat)
    (c : Node) (cHash : Bytes32) (hs : c.sideDigest H D h = some cHash) :
    ∃ c1, (c ≠ .nil → c.Hash H D h = some (c1, cHash)) ∧
      (c = .nil → c1 = .nil ∧ cHash = D (h : Int)) := by
  unfold Node.sideDigest at hs
  by_cases hc : c = .nil
  · subst hc
    simp only [ne_eq, not_true_eq_false, if_false, Option.some.injEq] at hs
    exact ⟨.nil, fun e => absurd rfl e, fun _ => ⟨rfl, hs.symm⟩⟩
  · simp only [ne_eq, hc, not_false_eq_true, if_true] at hs
    cases e : c.Hash H D h with
    | none => simp [e] at hs
    | some q =>
      obtain ⟨c1, d⟩ := q
      simp only [e, Option.map_some', Option.some.injEq] at hs
      subst hs
      exact ⟨c1, fun _ => rfl, fun e0 => absurd e0 hc⟩

/-- After a side has answered, asking it again gives the same answer and changes
nothing. -/
theorem Node.side_again (H : Bytes32 → Bytes32 → Bytes32) (D : Int → Bytes32) (h : Nat)
    {c c1 : Node} {cHash : Bytes32}
    (h1 : c ≠ .nil → c.Hash H D h = some (c1, cHash))
    (h0 : c = .nil → c1 = .nil ∧ cHash = D (h : Int)) :
    (c1 ≠ .nil → c1.Hash H D h = some (c1, cHash)) ∧
      (c1 = .nil → c1 = .nil ∧ cHash = D (h : Int)) ∧ (c1 = .nil ↔ c = .nil) := by
  by_cases hc : c = .nil
  · obtain ⟨e1, e2⟩ := h0 hc
    exact ⟨fun e => absurd e1 e, fun e => ⟨e, e2⟩, fun _ => hc, fun _ => e1⟩
  · have e := h1 hc
    have hne := (Node.Hash_ne_nil H D e).2
    exact ⟨fun _ => Node.Hash_idem H D e, fun e0 => absurd e0 hne,
      fun e0 => absurd e0 hne, fun e0 => absurd e0 hc⟩

/-! ## hashing: claims -/

/-- C5 (cached hash on a clean branch). For every Branch whose dirty flag is false,
whatever its children are (also children whose own `Hash` would panic), and every
height, `Hash` returns the stored hash field and the branch with its hash, flag and
subtrees exactly as they were. -/
theorem C5_clean_branch_cached (H : Bytes32 → Bytes32 → Bytes32) (D : Int → Bytes32)
    (p : Nat) (x : Bytes32) (l r : Node) (h : Nat) :
    (Node.branch p x false l r).Hash H D h = some (Node.branch p x false l r, x) := by
  unfold Node.Hash
  simp

/-- C6 (recomputation on a dirty branch). For every dirty Branch with at least one
child and every height `h`: when each present child answers `Hash(h)` with a digest
(`lHash` for the left, `rHash` for the right; an absent side gives the default hash of
`h`), `Hash(h)` returns `HashInterNode(lHash, rHash)`, the branch then stores that
value with a cleared dirty flag, and its two child references are the same objects as
before. -/
theorem C6_dirty_branch_recomputes (H : Bytes32 → Bytes32 → Bytes32) (D : Int → Bytes32)
    (p : Nat) (x : Bytes32) (l r : Node) (h : Nat) (l1 r1 : Node) (lHash rHash : Bytes32)
    (hc : l ≠ .nil ∨ r ≠ .nil)
    (hl : l ≠ .nil → l.Hash H D h = some (l1, lHash))
    (hl0 : l = .nil → l1 = .nil ∧ lHash = D (h : Int))
    (hr : r ≠ .nil → r.Hash H D h = some (r1, rHash))
    (hr0 : r = .nil → r1 = .nil ∧ rHash = D (h : Int)) :
    (Node.branch p x true l r).Hash H D h
      = some (Node.branch p (H lHash rHash) false l1 r1, H lHash rHash) ∧
    l1.same l = true ∧ r1.same r = true := by
  refine ⟨Node.Hash_dirty H D p x l r h l1 r1 lHash rHash hc hl hl0 hr hr0, ?_, ?_⟩
  · by_cases hln : l = .nil
    · rw [(hl0 hln).1, hln]; rfl
    · exact Node.Hash_same H D (hl hln)
  · by_cases hrn : r = .nil
    · rw [(hr0 hrn).1, hrn]; rfl
    · exact Node.Hash_same H D (hr hrn)

theorem C6_dirty_branch_recomputes_witness :
    (Node.branch 0 0 true (.leaf 2 ⟨11, 0, 0⟩) (.leaf 3 ⟨12, 1, 1⟩)).Hash
        sampleInter sampleDefault 3
      = some (Node.branch 0 (sampleInter 11 12) false (.leaf 2 ⟨11, 0, 0⟩)
          (.leaf 3 ⟨12, 1, 1⟩), sampleInter 11 12) ∧
    (Node.leaf 2 ⟨11, 0, 0⟩).same (.leaf 2 ⟨11, 0, 0⟩) = true ∧
    (Node.leaf 3 ⟨12, 1, 1⟩).same (.leaf 3 ⟨12, 1, 1⟩) = true :=
  C6_dirty_branch_recomputes sampleInter sampleDefault 0 0 (.leaf 2 ⟨11, 0, 0⟩)
    (.leaf 3 ⟨12, 1, 1⟩) 3 (.leaf 2 ⟨11, 0, 0⟩) (.leaf 3 ⟨12, 1, 1⟩) 11 12
    (Or.inl (by decide)) (fun _ => rfl) (fun e => absurd e (by decide))
    (fun _ => rfl) (fun e => absurd e (by decide))

/-- C7 (default-hash substitution). For every dirty Branch with exactly one present
child `c`, whose `Hash(h)` answers the digest `cHash`: `Hash(h)` on the branch is
`HashInterNode(cHash, Default(h))` when the right child is absent and
`HashInterNode(Default(h), cHash)` when the left child is absent; and it is the digest
obtained when any node whose hash is `Default(h)` stands in the absent position. -/
theorem C7_default_hash_substitution (H : Bytes32 → Bytes32 → Bytes32) (D : Int → Bytes32)
    (p : Nat) (x : Bytes32) (c c1 : Node) (cHash : Bytes32) (h : Nat)
    (hc : c.Hash H D h = some (c1, cHash)) :
    (Node.branch p x true c .nil).Hash H D h
      = some (Node.branch p (H cHash (D (h : Int))) false c1 .nil, H cHash (D (h : Int))) ∧
    (Node.branch p x true .nil c).Hash H D h
      = some (Node.branch p (H (D (h : Int)) cHash) false .nil c1, H (D (h : Int)) cHash) ∧
    ∀ e e1 : Node, e.Hash H D h = some (e1, D (h : Int)) →
      ((Node.branch p x true c e).Hash H D h).map Prod.snd
        = ((Node.branch p x true c .nil).Hash H D h).map Prod.snd ∧
      ((Node.branch p x true e c).Hash H D h).map Prod.snd
        = ((Node.branch p x true .nil c).Hash H D h).map Prod.snd := by
  have hcn := (Node.Hash_ne_nil H D hc).1
  have hA := Node.Hash_dirty H D p x c .nil h c1 .nil cHash (D (h : Int)) (Or.inl hcn)
    (fun _ => hc) (fun e => absurd e hcn) (fun e => absurd rfl e) (fun _ => ⟨rfl, rfl⟩)
  have hB := Node.Hash_dirty H D p x .nil c h .nil c1 (D (h : Int)) cHash (Or.inr hcn)
    (fun e => absurd rfl e) (fun _ => ⟨rfl, rfl⟩) (fun _ => hc) (fun e => absurd e hcn)
  refine ⟨hA, hB, fun e e1 he => ?_⟩
  have hen := (Node.Hash_ne_nil H D he).1
  have hC := Node.Hash_dirty H D p x c e h c1 e1 cHash (D (h : Int)) (Or.inl hcn)
    (fun _ => hc) (fun e0 => absurd e0 hcn) (fun _ => he) (fun e0 => absurd e0 hen)
  have hE := Node.Hash_dirty H D p x e c h e1 c1 (D (h : Int)) cHash (Or.inr hcn)
    (fun _ => he) (fun e0 => absurd e0 hen) (fun _ => hc) (fun e0 => absurd e0 hcn)
  rw [hA, hB, hC, hE]
  exact ⟨rfl, rfl⟩

theorem C7_default_hash_substitution_witness :
    (Node.branch 4 0 true (.leaf 5 ⟨13, 2, 2⟩) .nil).Hash sampleInter sampleDefault 3
      = some (Node.branch 4 (sampleInter 13 (sampleDefault (3 : Nat))) false
          (.leaf 5 ⟨13, 2, 2⟩) .nil, sampleInter 13 (sampleDefault (3 : Nat))) ∧
    (Node.branch 4 0 true .nil (.leaf 5 ⟨13, 2, 2⟩)).Hash sampleInter sampleDefault 3
      = some (Node.branch 4 (sampleInter (sampleDefault (3 : Nat)) 13) false .nil
          (.leaf 5 ⟨13, 2, 2⟩), sampleInter (sampleDefault (3 : Nat)) 13) ∧
    ∀ e e1 : Node, e.Hash sampleInter sampleDefault 3 = some (e1, sampleDefault (3 : Nat)) →
      ((Node.branch 4 0 true (.leaf 5 ⟨13, 2, 2⟩) e).Hash sampleInter sampleDefault 3).map
          Prod.snd
        = ((Node.branch 4 0 true (.leaf 5 ⟨13, 2, 2⟩) .nil).Hash
            sampleInter sampleDefault 3).map Prod.snd ∧
      ((Node.branch 4 0 true e (.leaf 5 ⟨13, 2, 2⟩)).Hash sampleInter sampleDefault 3).map
          Prod.snd
        = ((Node.branch 4 0 true .nil (.leaf 5 ⟨13, 2, 2⟩)).Hash
            sampleInter sampleDefault 3).map Prod.snd :=
  C7_default_hash_substitution sampleInter sampleDefault 4 0 (.leaf 5 ⟨13, 2, 2⟩)
    (.leaf 5 ⟨13, 2, 2⟩) 13 3 rfl

/-- C8, as stated, fails. On `staleTrie` (well-formed; clean root with cached hash 7
over a leaf with hash 1) the first `Hash(0)` returns 7 and changes nothing; with the
root's dirty flag set again and the children as they are, `Hash(0)` recomputes
`HashInterNode(1, Default(0))`, which is 303 for the sample functions. More generally
no choice of `HashInterNode` and `Default` makes the second half of the claim true on
all well-formed tries. -/
theorem C8_counterexample :
    (staleTrie.WellFormed ∧
      staleTrie.Hash sampleInter sampleDefault 0 = some (staleTrie, 7) ∧
      (staleTrie.markDirty.Hash sampleInter sampleDefault 0).map Prod.snd = some 303) ∧
    ¬ ∃ (H : Bytes32 → Bytes32 → Bytes32) (D : Int → Bytes32),
        ∀ (t : Node) (h : Nat), t.WellFormed → t ≠ .nil →
          ∀ t1 d, t.Hash H D h = some (t1, d) →
            ∃ t2, t1.markDirty.Hash H D h = some (t2, d) := by
  refine ⟨⟨by simp [staleTrie, Node.WellFormed], by decide, by decide⟩, ?_⟩
  rintro ⟨H, D, hall⟩
  have hw : (Node.branch 0 (H 1 (D 0) + 1) false (.leaf 1 ⟨1, 0, 0⟩) .nil).WellFormed := by
    simp [Node.WellFormed]
  obtain ⟨t2, h2⟩ := hall _ 0 hw (by simp) _ _
    (Node.Hash_clean H D 0 (H 1 (D 0) + 1) (.leaf 1 ⟨1, 0, 0⟩) .nil 0)
  simp [Node.markDirty, Node.Hash, Leaf.Hash] at h2

/-- C8 (hash stability), amended. For every well-formed trie with a non-nil root and
every height `h`: `Hash(h)` on the root returns a digest, a second call returns the
same digest and changes no node; and if the root, when first hashed, was dirty or
held a cached hash equal to `HashInterNode` of the digests its children answer (or is
a Leaf), then after the root's dirty flag is set again, with the children as they are,
the recomputing call `Hash(h)` returns the digest of the first call. -/
theorem C8_hash_stability (H : Bytes32 → Bytes32 → Bytes32) (D : Int → Bytes32)
    (t : Node) (h : Nat) (hw : t.WellFormed) (hn : t ≠ .nil) :
    ∃ t1 d, t.Hash H D h = some (t1, d) ∧ t1.Hash H D h = some (t1, d) ∧
      (t.CacheValid H D h → ∃ t2, t1.markDirty.Hash H D h = some (t2, d)) := by
  cases t with
  | nil => exact absurd rfl hn
  | leaf p l => exact ⟨_, _, rfl, rfl, fun _ => ⟨_, rfl⟩⟩
  | branch p x dirty l r =>
    obtain ⟨hc, hwl, hwr⟩ := hw
    cases dirty
    · refine ⟨_, _, Node.Hash_clean H D p x l r h,
        Node.Hash_clean H D p x l r h, fun hv => ?_⟩
      obtain ⟨lh, rh, el, er, ex⟩ := hv
      obtain ⟨l1, hl, hl0⟩ := Node.side_of_digest H D h l lh el
      obtain ⟨r1, hr, hr0⟩ := Node.side_of_digest H D h r rh er
      refine ⟨Node.branch p (H lh rh) false l1 r1, ?_⟩
      rw [ex]
      exact Node.Hash_dirty H D p _ l r h l1 r1 lh rh hc hl hl0 hr hr0
    · obtain ⟨l1, lh, hl, hl0⟩ := Node.side_total H D h l hwl
      obtain ⟨r1, rh, hr, hr0⟩ := Node.side_total H D h r hwr
      have e1 := Node.Hash_dirty H D p x l r h l1 r1 lh rh hc hl hl0 hr hr0
      obtain ⟨al, al0, aln⟩ := Node.side_again H D h hl hl0
      obtain ⟨ar, ar0, arn⟩ := Node.side_again H D h hr hr0
      have hc1 : l1 ≠ .nil ∨ r1 ≠ .nil := by
        rcases hc with c | c
        · exact Or.inl (fun e => c (aln.mp e))
        · exact Or.inr (fun e => c (arn.mp e))
      exact ⟨_, _, e1, Node.Hash_idem H D e1, fun _ =>
        ⟨_, Node.Hash_dirty H D p _ l1 r1 h l1 r1 lh rh hc1 al al0 ar ar0⟩⟩

theorem C8_hash_stability_witness :
    sampleTrie.WellFormed ∧ sampleTrie ≠ .nil ∧
    ∃ t1 d, sampleTrie.Hash sampleInter sampleDefault 3 = some (t1, d) ∧
      t1.Hash sampleInter sampleDefault 3 = some (t1, d) ∧
      (sampleTrie.CacheValid sampleInter sampleDefault 3 →
        ∃ t2, t1.markDirty.Hash sampleInter sampleDefault 3 = some (t2, d)) :=
  ⟨by simp [sampleTrie, Node.WellFormed], by decide,
    C8_hash_stability sampleInter sampleDefault sampleTrie 3
      (by simp [sampleTrie, Node.WellFormed]) (by decide)⟩

/-- C9, as stated, fails: a childless Branch whose dirty flag is false answers `Hash`
with its cached hash (here 7) and does not panic. -/
theorem C9_counterexample :
    (Node.branch 0 7 false .nil .nil).Hash sampleInter sampleDefault 3
      = some (Node.branch 0 7 false .nil .nil, 7) := by
  decide

/-- C9 (a childless branch fails loudly), amended. For every Branch whose children
are both absent and whose dirty flag is set, and every height, `Hash` panics and
returns no digest, whatever the cached hash; and `computeHash` panics on every
childless Branch. -/
theorem C9_childless_dirty_branch_panics (H : Bytes32 → Bytes32 → Bytes32)
    (D : Int → Bytes32) (p : Nat) (x : Bytes32) (h : Nat) :
    (Node.branch p x true .nil .nil).Hash H D h = none ∧
    Node.computeHash H D p .nil .nil h = none := by
  simp [Node.Hash, Node.computeHash]

/-- C10 (Leaf.Hash is a pure accessor). For every Leaf and every height, `Hash`
returns the stored hash field, the same for all heights, and the leaf (hash, path,
key) is as it was. -/
theorem C10_leaf_hash_accessor (H : Bytes32 → Bytes32 → Bytes32) (D : Int → Bytes32)
    (p : Nat) (l : Leaf) (h : Nat) :
    (Node.leaf p l).Hash H D h = some (Node.leaf p l, l.hash) ∧
    ∀ h1 h2 : Int, l.Hash h1 = l.hash ∧ l.Hash h1 = l.Hash h2 :=
  ⟨rfl, fun _ _ => ⟨rfl, rfl⟩⟩

/-! ## hashing: validity of the caches -/

/-- What a returning `Hash` on a dirty Branch has done. -/
theorem Node.Hash_dirty_inv (H : Bytes32 → Bytes32 → Bytes32) (D : Int → Bytes32)
    {p : Nat} {x : Bytes32} {l r : Node} {h : Nat} {t1 : Node} {d : Bytes32}
    (ht : (Node.branch p x true l r).Hash H D h = some (t1, d)) :
    ∃ l1 r1 lHash rHash, (l ≠ .nil ∨ r ≠ .nil) ∧
      (l ≠ .nil → l.Hash H D h = some (l1, lHash)) ∧
      (l = .nil → l1 = .nil ∧ lHash = D (h : Int)) ∧
      (r ≠ .nil → r.Hash H D h = some (r1, rHash)) ∧
      (r = .nil → r1 = .nil ∧ rHash = D (h : Int)) ∧
      t1 = Node.branch p (H lHash rHash) false l1 r1 ∧ d = H lHash rHash := by
  simp only [Node.Hash, if_true] at ht
  split at ht
  · cases ht
  · rename_i hnot
    split at ht
    · rename_i l1 lh r1 rh el er
      simp only [Option.some.injEq, Prod.mk.injEq] at ht
      refine ⟨l1, r1, lh, rh, ?_, ?_, ?_, ?_, ?_, ht.1.symm, ht.2.symm⟩
      · by_contra hc
        push_neg at hc
        exact hnot hc
      · intro hl; simpa [hl] using el
      · intro hl
        subst hl
        simp only [ne_eq, not_true_eq_false, if_false, Option.some.injEq,
          Prod.mk.injEq] at el
        exact ⟨el.1.symm, el.2.symm⟩
      · intro hr; simpa [hr] using er
      · intro hr
        subst hr
        simp only [ne_eq, not_true_eq_false, if_false, Option.some.injEq,
          Prod.mk.injEq] at er
        exact ⟨er.1.symm, er.2.symm⟩
    · cases ht

/-- The digest of a side, before and after the side has answered. -/
theorem Node.sideDigest_of_side (H : Bytes32 → Bytes32 → Bytes32) (D : Int → Bytes32)
    {h : Nat} {c c1 : Node} {cHash : Bytes32}
    (h1 : c ≠ .nil → c.Hash H D h = some (c1, cHash))
    (h0 : c = .nil → c1 = .nil ∧ cHash = D (h : Int)) :
    c.sideDigest H D h = some cHash ∧ c1.sideDigest H D h = some cHash := by
  obtain ⟨a1, a0, an⟩ := Node.side_again H D h h1 h0
  unfold Node.sideDigest
  by_cases hc : c = .nil
  · obtain ⟨e1, e2⟩ := h0 hc
    subst hc e1
    simp [e2]
  · have hc1 : c1 ≠ .nil := fun e => hc (an.mp e)
    simp [hc, hc1, h1 hc, a1 hc1]

/-- Hashing a node keeps every Branch below it valid. -/
theorem Node.AllValid_Hash (H : Bytes32 → Bytes32 → Bytes32) (D : Int → Bytes32) (h : Nat)
    (t : Node) : t.AllValid H D h → ∀ t1 d, t.Hash H D h = some (t1, d) →
      t1.AllValid H D h := by
  induction t with
  | nil => intro _ t1 d ht; simp [Node.Hash] at ht
  | leaf p l =>
    intro hv t1 d ht
    simp only [Node.Hash, Option.some.injEq, Prod.mk.injEq] at ht
    rw [← ht.1]; exact hv
  | branch p x dirty l r ihl ihr =>
    intro hv t1 d ht
    cases dirty
    · rw [Node.Hash_clean] at ht
      simp only [Option.some.injEq, Prod.mk.injEq] at ht
      rw [← ht.1]; exact hv
    · obtain ⟨l1, r1, lh, rh, _, hl, hl0, hr, hr0, e1, _⟩ := Node.Hash_dirty_inv H D ht
      subst e1
      have hvl : l.AllValid H D h := fun n hn =>
        hv n (by simp [Node.nodes, hn])
      have hvr : r.AllValid H D h := fun n hn =>
        hv n (by simp [Node.nodes, hn])
      have hl1 : l1.AllValid H D h := by
        by_cases hln : l = .nil
        · rw [(hl0 hln).1]; intro n hn; simp [Node.nodes] at hn
        · exact ihl hvl _ _ (hl hln)
      have hr1 : r1.AllValid H D h := by
        by_cases hrn : r = .nil
        · rw [(hr0 hrn).1]; intro n hn; simp [Node.nodes] at hn
        · exact ihr hvr _ _ (hr hrn)
      intro n hn
      simp only [Node.nodes, List.mem_cons, List.mem_append] at hn
      rcases hn with rfl | hn | hn
      · exact ⟨lh, rh, (Node.sideDigest_of_side H D hl hl0).2,
          (Node.sideDigest_of_side H D hr hr0).2, rfl⟩
      · exact hl1 n hn
      · exact hr1 n hn

theorem Node.subAt_nil (path : List Bool) : Node.subAt path .nil = .nil := by
  induction path with
  | nil => rfl
  | cons b path ih => cases b <;> simpa [Node.subAt, Node.LeftChild, Node.RightChild] using ih

theorem Node.subAt_leaf (b : Bool) (path : List Bool) (p : Nat) (l : Leaf) :
    Node.subAt (b :: path) (.leaf p l) = .nil := by
  cases b <;> simp [Node.subAt, Node.LeftChild, Node.RightChild, Node.subAt_nil]

/-- The digest a dirty Branch answers, from the digests of its two sides. -/
theorem Node.Hash_digest_dirty (H : Bytes32 → Bytes32 → Bytes32) (D : Int → Bytes32)
    (p : Nat) (x : Bytes32) (l r : Node) (h : Nat) (hc : l ≠ .nil ∨ r ≠ .nil) :
    ((Node.branch p x true l r).Hash H D h).map Prod.snd
      = (l.sideDigest H D h).bind (fun lHash =>
          (r.sideDigest H D h).map (fun rHash => H lHash rHash)) := by
  have hnot : ¬ (l = .nil ∧ r = .nil) := by
    rintro ⟨a, b⟩; rcases hc with c | c
    · exact c a
    · exact c b
  simp only [Node.Hash, if_true, hnot, if_false, Node.sideDigest]
  by_cases hl : l = .nil <;> by_cases hr : r = .nil
  · exact absurd ⟨hl, hr⟩ hnot
  · subst hl
    cases er : r.Hash H D h <;> simp [hr, er]
  · subst hr
    cases el : l.Hash H D h <;> simp [hl, el]
  · cases el : l.Hash H D h <;> cases er : r.Hash H D h <;> simp [hl, hr, el, er]

/-- Hashing a node inside a trie does not change the digest the root answers, nor
whether the root is nil. -/
theorem Node.HashAt_answer (H : Bytes32 → Bytes32 → Bytes32) (D : Int → Bytes32) (h : Nat)
    (path : List Bool) : ∀ (t t1 : Node) (d : Bytes32),
      t.HashAt H D h path = some (t1, d) →
      (t1.Hash H D h).map Prod.snd = (t.Hash H D h).map Prod.snd ∧
        t ≠ .nil ∧ t1 ≠ .nil := by
  induction path with
  | nil =>
    intro t t1 d ht
    simp only [Node.HashAt] at ht
    refine ⟨?_, Node.Hash_ne_nil H D ht⟩
    rw [Node.Hash_idem H D ht, ht]
  | cons b path ih =>
    intro t t1 d ht
    cases t with
    | nil => cases b <;> simp [Node.HashAt] at ht
    | leaf p l => cases b <;> simp [Node.HashAt] at ht
    | branch p x dirty l r =>
      cases b
      · simp only [Node.HashAt] at ht
        cases e : l.HashAt H D h path with
        | none => simp [e] at ht
        | some q =>
          obtain ⟨l1, dl⟩ := q
          simp only [e, Option.map_some', Option.some.injEq, Prod.mk.injEq] at ht
          obtain ⟨rfl, rfl⟩ := ht
          obtain ⟨ha, hl, hl1⟩ := ih l l1 _ e
          refine ⟨?_, by simp, by simp⟩
          cases dirty
          · simp [Node.Hash_clean]
          · rw [Node.Hash_digest_dirty H D p x l1 r h (Or.inl hl1),
              Node.Hash_digest_dirty H D p x l r h (Or.inl hl)]
            simp only [Node.sideDigest, ne_eq, hl, hl1, not_false_eq_true, if_true, ha]
      · simp only [Node.HashAt] at ht
        cases e : r.HashAt H D h path with
        | none => simp [e] at ht
        | some q =>
          obtain ⟨r1, dr⟩ := q
          simp only [e, Option.map_some', Option.some.injEq, Prod.mk.injEq] at ht
          obtain ⟨rfl, rfl⟩ := ht
          obtain ⟨ha, hr, hr1⟩ := ih r r1 _ e
          refine ⟨?_, by simp, by simp⟩
          cases dirty
          · simp [Node.Hash_clean]
          · rw [Node.Hash_digest_dirty H D p x l r1 h (Or.inr hr1),
              Node.Hash_digest_dirty H D p x l r h (Or.inr hr)]
            simp only [Node.sideDigest, ne_eq, hr, hr1, not_false_eq_true, if_true, ha]

/-- Hashing a node inside a trie keeps every Branch of the trie valid. -/
theorem Node.AllValid_HashAt (H : Bytes32 → Bytes32 → Bytes32) (D : Int → Bytes32) (h : Nat)
    (path : List Bool) : ∀ (t t1 : Node) (d : Bytes32), t.AllValid H D h →
      t.HashAt H D h path = some (t1, d) → t1.AllValid H D h := by
  induction path with
  | nil => intro t t1 d hv ht; exact Node.AllValid_Hash H D h t hv t1 d ht
  | cons b path ih =>
    intro t t1 d hv ht
    cases t with
    | nil => cases b <;> simp [Node.HashAt] at ht
    | leaf p l => cases b <;> simp [Node.HashAt] at ht
    | branch p x dirty l r =>
      have hvl : l.AllValid H D h := fun n hn => hv n (by simp [Node.nodes, hn])
      have hvr : r.AllValid H D h := fun n hn => hv n (by simp [Node.nodes, hn])
      have hroot := hv (Node.branch p x dirty l r) (by simp [Node.nodes])
      cases b
      · simp only [Node.HashAt] at ht
        cases e : l.HashAt H D h path with
        | none => simp [e] at ht
        | some q =>
          obtain ⟨l1, dl⟩ := q
          simp only [e, Option.map_some', Option.some.injEq, Prod.mk.injEq] at ht
          obtain ⟨rfl, rfl⟩ := ht
          obtain ⟨ha, hl, hl1⟩ := Node.HashAt_answer H D h path l l1 _ e
          intro n hn
          simp only [Node.nodes, List.mem_cons, List.mem_append] at hn
          rcases hn with rfl | hn | hn
          · cases dirty
            · obtain ⟨lh, rh, el, er, ex⟩ := hroot
              refine ⟨lh, rh, ?_, er, ex⟩
              simp only [Node.sideDigest, ne_eq, hl, hl1, not_false_eq_true, if_true,
                ha] at el ⊢
              exact el
            · trivial
          · exact ih l l1 _ hvl e n hn
          · exact hvr n hn
      · simp only [Node.HashAt] at ht
        cases e : r.HashAt H D h path with
        | none => simp [e] at ht
        | some q =>
          obtain ⟨r1, dr⟩ := q
          simp only [e, Option.map_some', Option.some.injEq, Prod.mk.injEq] at ht
          obtain ⟨rfl, rfl⟩ := ht
          obtain ⟨ha, hr, hr1⟩ := Node.HashAt_answer H D h path r r1 _ e
          intro n hn
          simp only [Node.nodes, List.mem_cons, List.mem_append] at hn
          rcases hn with rfl | hn | hn
          · cases dirty
            · obtain ⟨lh, rh, el, er, ex⟩ := hroot
              refine ⟨lh, rh, el, ?_, ex⟩
              simp only [Node.sideDigest, ne_eq, hr, hr1, not_false_eq_true, if_true,
                ha] at er ⊢
              exact er
            · trivial
          · exact hvl n hn
          · exact ih r r1 _ hvr e n hn

/-- In a trie in which every Branch has a child, `Hash` on any node of the trie
returns. -/
theorem Node.HashAt_total (H : Bytes32 → Bytes32 → Bytes32) (D : Int → Bytes32) (h : Nat)
    (path : List Bool) : ∀ (t : Node), t.WellFormed → Node.subAt path t ≠ .nil →
      ∃ t1 d, t.HashAt H D h path = some (t1, d) := by
  induction path with
  | nil => intro t hw hs; exact Node.Hash_total H D h t hw hs
  | cons b path ih =>
    intro t hw hs
    cases t with
    | nil => exact absurd (Node.subAt_nil _) hs
    | leaf p l => exact absurd (Node.subAt_leaf b path p l) hs
    | branch p x dirty l r =>
      obtain ⟨_, hwl, hwr⟩ := hw
      cases b
      · obtain ⟨l1, d, e⟩ := ih l hwl (by simpa [Node.subAt, Node.LeftChild] using hs)
        exact ⟨Node.branch p x dirty l1 r, d, by simp [Node.HashAt, e]⟩
      · obtain ⟨r1, d, e⟩ := ih r hwr (by simpa [Node.subAt, Node.RightChild] using hs)
        exact ⟨Node.branch p x dirty l r1, d, by simp [Node.HashAt, e]⟩

/-- C11 (valid-or-dirty is preserved by hashing). In a well-formed trie in which
every Branch is valid (dirty, or caching the interior hash of the digests its children
answer, the default hash standing for an absent child), `Hash(h)` called on any node
of the trie returns and leaves every Branch of the trie valid; and whenever a Branch
whose dirty flag is set answers `Hash(h)`, the digest it returns is the interior hash
of the digests of its two sides, and that is the value it stores. -/
theorem C11_valid_or_dirty_preserved (H : Bytes32 → Bytes32 → Bytes32) (D : Int → Bytes32)
    (t : Node) (h : Nat) (path : List Bool) (hw : t.WellFormed) (hv : t.AllValid H D h)
    (hp : Node.subAt path t ≠ .nil) :
    (∃ t1 d, t.HashAt H D h path = some (t1, d) ∧ t1.AllValid H D h) ∧
    ∀ (p : Nat) (x : Bytes32) (l r b1 : Node) (d : Bytes32),
      (Node.branch p x true l r).Hash H D h = some (b1, d) →
      ∃ lHash rHash, l.sideDigest H D h = some lHash ∧ r.sideDigest H D h = some rHash ∧
        d = H lHash rHash ∧ b1.hashField = H lHash rHash ∧ b1.isDirty = false := by
  refine ⟨?_, ?_⟩
  · obtain ⟨t1, d, e⟩ := Node.HashAt_total H D h path t hw hp
    exact ⟨t1, d, e, Node.AllValid_HashAt H D h path t t1 d hv e⟩
  · intro p x l r b1 d hb
    obtain ⟨l1, r1, lh, rh, _, hl, hl0, hr, hr0, e1, e2⟩ := Node.Hash_dirty_inv H D hb
    subst e1
    exact ⟨lh, rh, (Node.sideDigest_of_side H D hl hl0).1,
      (Node.sideDigest_of_side H D hr hr0).1, e2, rfl, rfl⟩

theorem C11_valid_or_dirty_preserved_witness :
    validTrie.WellFormed ∧ validTrie.AllValid sampleInter sampleDefault 3 ∧
    Node.subAt [false] validTrie ≠ .nil ∧
    (∃ t1 d, validTrie.HashAt sampleInter sampleDefault 3 [false] = some (t1, d) ∧
      t1.AllValid sampleInter sampleDefault 3) ∧
    ∀ (p : Nat) (x : Bytes32) (l r b1 : Node) (d : Bytes32),
      (Node.branch p x true l r).Hash sampleInter sampleDefault 3 = some (b1, d) →
      ∃ lHash rHash, l.sideDigest sampleInter sampleDefault 3 = some lHash ∧
        r.sideDigest sampleInter sampleDefault 3 = some rHash ∧
        d = sampleInter lHash rHash ∧ b1.hashField = sampleInter lHash rHash ∧
        b1.isDirty = false :=
  have hw : validTrie.WellFormed := by simp [validTrie, Node.WellFormed]
  have hv : validTrie.AllValid sampleInter sampleDefault 3 := by
    intro n hn
    simp only [validTrie, Node.nodes, List.mem_cons, List.mem_append, List.mem_singleton,
      List.append_nil, List.not_mem_nil, or_false] at hn
    rcases hn with rfl | (rfl | rfl) | rfl
    · exact ⟨332, 12, by decide, by decide, by decide⟩
    · trivial
    · trivial
    · trivial
  ⟨hw, hv, by decide, C11_valid_or_dirty_preserved sampleInter sampleDefault validTrie 3
    [false] hw hv (by decide)⟩

/-! ## the pool -/

theorem NewPool.loop_eq (number : Int) (k : Nat) :
    ∀ (i : Int) (ePool : SyncPool Extension) (bPool : SyncPool Branch)
      (lPool : SyncPool Leaf), (number - i).toNat = k →
      NewPool.loop number i ePool bPool lPool =
        ({ ePool with items := List.replicate k (ePool.New ()) ++ ePool.items },
         { bPool with items := List.replicate k (bPool.New ()) ++ bPool.items },
         { lPool with items := List.replicate k (lPool.New ()) ++ lPool.items }) := by
  induction k with
  | zero =>
    intro i ePool bPool lPool hk
    rw [NewPool.loop]
    have : ¬ i < number := by omega
    simp [this]
  | succ k ih =>
    intro i ePool bPool lPool hk
    rw [NewPool.loop]
    have : i < number := by omega
    simp only [this, if_true]
    rw [ih (i + 1) _ _ _ (by omega)]
    simp [SyncPool.Put, List.replicate_succ', List.append_assoc]

/-- The three free lists `NewPool` builds. -/
theorem NewPool_items (number : Int) :
    (NewPool number).extensions.items = List.replicate number.toNat Extension.zero ∧
    (NewPool number).branches.items = List.replicate number.toNat Branch.zero ∧
    (NewPool number).leaves.items = List.replicate number.toNat Leaf.zero ∧
    (NewPool number).extensions.New () = Extension.zero ∧
    (NewPool number).branches.New () = Branch.zero ∧
    (NewPool number).leaves.New () = Leaf.zero := by
  simp [NewPool, NewPool.loop_eq number number.toNat 0 _ _ _ (by omega)]

/-- C12 (pool pre-warming). For every count `n >= 0`, `NewPool(n)` has put exactly `n`
Extension, `n` Branch and `n` Leaf instances, each the zero value, into the
respective pool; for `n <= 0` the three pools are empty; and a `Get` on a pool of
`NewPool(n)` that has no available instance returns a zero-valued instance of that
variant, made by `New`. -/
theorem C12_pool_prewarming (number : Int) :
    (0 ≤ number →
      ((NewPool number).extensions.items.length : Int) = number ∧
      ((NewPool number).branches.items.length : Int) = number ∧
      ((NewPool number).leaves.items.length : Int) = number) ∧
    (∀ x ∈ (NewPool number).extensions.items, x = Extension.zero) ∧
    (∀ x ∈ (NewPool number).branches.items, x = Branch.zero) ∧
    (∀ x ∈ (NewPool number).leaves.items, x = Leaf.zero) ∧
    (number ≤ 0 →
      (NewPool number).extensions.items = [] ∧ (NewPool number).branches.items = [] ∧
      (NewPool number).leaves.items = []) ∧
    (SyncPool.mk (NewPool number).extensions.New []).Get.1 = Extension.zero ∧
    (SyncPool.mk (NewPool number).branches.New []).Get.1 = Branch.zero ∧
    (SyncPool.mk (NewPool number).leaves.New []).Get.1 = Leaf.zero := by
  obtain ⟨he, hb, hl, ne, nb, nl⟩ := NewPool_items number
  refine ⟨fun h0 => ?_, ?_, ?_, ?_, fun h0 => ?_, ?_, ?_, ?_⟩
  · rw [he, hb, hl]
    simp only [List.length_replicate]
    omega
  · rw [he]; exact fun x hx => List.eq_of_mem_replicate hx
  · rw [hb]; exact fun x hx => List.eq_of_mem_replicate hx
  · rw [hl]; exact fun x hx => List.eq_of_mem_replicate hx
  · have : number.toNat = 0 := by omega
    rw [he, hb, hl, this]
    exact ⟨rfl, rfl, rfl⟩
  · simpa [SyncPool.Get] using ne
  · simpa [SyncPool.Get] using nb
  · simpa [SyncPool.Get] using nl

/-! ## the iterator: first emission, advance rule, stack shape -/

theorem NodeIterator.dig_eq (t : Node) :
    ∀ (u : Node) (s : List Node), (NodeIterator.mk u s).dig t = NodeIterator.mk u (s ++ t.descent) := by
  induction t with
  | nil => intro u s; simp [NodeIterator.dig, Node.descent]
  | leaf p l => intro u s; simp [NodeIterator.dig, Node.descent]
  | branch p h d l r ihl ihr =>
    intro u s
    simp only [NodeIterator.dig, Node.descent]
    by_cases hl : l = .nil
    · subst hl
      by_cases hr : r = .nil
      · subst hr; simp [Node.descent]
      · simp [hr, ihr]
    · simp [hl, ihl]

theorem Node.descent_head {t : Node} (ht : t ≠ .nil) : t.descent.head? = some t := by
  cases t with
  | nil => exact absurd rfl ht
  | leaf p l => rfl
  | branch p h d l r => rfl

theorem Node.descent_ne_nil {t : Node} (ht : t ≠ .nil) : t.descent ≠ [] := by
  cases t <;> simp_all [Node.descent]

theorem Node.descent_mem_ne_nil (t : Node) : ∀ x ∈ t.descent, x ≠ .nil := by
  induction t with
  | nil => intro x hx; simp [Node.descent] at hx
  | leaf p l => intro x hx; simp [Node.descent] at hx; simp [hx]
  | branch p h d l r ihl ihr =>
    intro x hx
    simp only [Node.descent, List.mem_cons] at hx
    rcases hx with rfl | hx
    · simp
    · split at hx
      · exact ihl x hx
      · exact ihr x hx

theorem Node.descent_chain (t : Node) : List.Chain' Node.DescendsTo t.descent := by
  induction t with
  | nil => exact List.chain'_nil
  | leaf p l => exact List.chain'_singleton _
  | branch p h d l r ihl ihr =>
    simp only [Node.descent]
    by_cases hl : l = .nil
    · subst hl
      simp only [ne_eq, not_true_eq_false, if_false]
      refine List.Chain'.cons' ihr ?_
      intro y hy
      by_cases hr : r = .nil
      · subst hr; simp [Node.descent] at hy
      · rw [Node.descent_head hr] at hy
        simp only [Option.mem_def, Option.some.injEq] at hy
        subst hy
        exact ⟨hr, Or.inr ⟨rfl, rfl⟩⟩
    · simp only [ne_eq, hl, not_false_eq_true, if_true]
      refine List.Chain'.cons' ihl ?_
      intro y hy
      rw [Node.descent_head hl] at hy
      simp only [Option.mem_def, Option.some.injEq] at hy
      subst hy
      exact ⟨hl, Or.inl ⟨hl, rfl⟩⟩

theorem getLast?_cons_of_ne_nil {α : Type} (a : α) {xs : List α} (h : xs ≠ []) :
    (a :: xs).getLast? = xs.getLast? := by
  cases xs with
  | nil => exact absurd rfl h
  | cons b ys => exact List.getLast?_cons_cons

theorem Node.descent_last (t : Node) : t ≠ .nil →
    ∃ c, t.descent.getLast? = some c ∧ c ≠ .nil ∧ c.LeftChild = .nil ∧ c.RightChild = .nil := by
  induction t with
  | nil => intro h; exact absurd rfl h
  | leaf p l => intro _; exact ⟨_, rfl, by simp, rfl, rfl⟩
  | branch p h d l r ihl ihr =>
    intro _
    simp only [Node.descent]
    by_cases hl : l = .nil
    · subst hl
      by_cases hr : r = .nil
      · subst hr
        exact ⟨Node.branch p h d .nil .nil, by simp [Node.descent], by simp, rfl, rfl⟩
      · obtain ⟨c, hc, hrest⟩ := ihr hr
        refine ⟨c, ?_, hrest⟩
        simp only [ne_eq, not_true_eq_false, if_false]
        rw [getLast?_cons_of_ne_nil _ (Node.descent_ne_nil hr)]
        exact hc
    · obtain ⟨c, hc, hrest⟩ := ihl hl
      refine ⟨c, ?_, hrest⟩
      simp only [ne_eq, hl, not_false_eq_true, if_true]
      rw [getLast?_cons_of_ne_nil _ (Node.descent_ne_nil hl)]
      exact hc

theorem NodeIterator.Value_of_getLast {u : Node} {s : List Node} {c : Node}
    (h : s.getLast? = some c) : (NodeIterator.mk u s).Value = some c := by
  rcases List.eq_nil_or_concat s with hs | ⟨s1, n, hs⟩
  · subst hs; simp at h
  · subst hs
    rw [List.concat_eq_append] at h ⊢
    rw [NodeIterator.Value_concat]
    simpa using h

/-- C13 (first emission). For every non-empty trie the first call of `Next` returns
true and leaves on the stack, bottom first, exactly the nodes of the descent from the
root: the list starts with the root, each further element is the left child of the one
before it if that has a left child and otherwise its right child, and the last element
is childless; `Value` then returns that childless node. -/
theorem C13_first_emission (tr : Trie) (hn : tr.RootNode ≠ .nil) :
    (NewNodeIterator tr).Next
      = some (NodeIterator.mk .nil tr.RootNode.descent, true) ∧
    tr.RootNode.descent.head? = some tr.RootNode ∧
    List.Chain' Node.DescendsTo tr.RootNode.descent ∧
    ∃ c, tr.RootNode.descent.getLast? = some c ∧ c ≠ .nil ∧
      c.LeftChild = .nil ∧ c.RightChild = .nil ∧
      (NodeIterator.mk .nil tr.RootNode.descent).Value = some c := by
  obtain ⟨t⟩ := tr
  simp only [Trie.RootNode] at hn ⊢
  obtain ⟨c, hc, hcn, hcl, hcr⟩ := Node.descent_last t hn
  refine ⟨?_, Node.descent_head hn, Node.descent_chain t, c, hc, hcn, hcl, hcr,
    NodeIterator.Value_of_getLast hc⟩
  rw [NodeIterator.Next_fresh hn, NodeIterator.dig_eq]
  simp

theorem C13_first_emission_witness :
    (Trie.mk sampleTrie).RootNode ≠ .nil ∧
    (NewNodeIterator (Trie.mk sampleTrie)).Next
      = some (NodeIterator.mk .nil (Trie.mk sampleTrie).RootNode.descent, true) ∧
    (Trie.mk sampleTrie).RootNode.descent.head? = some (Trie.mk sampleTrie).RootNode ∧
    List.Chain' Node.DescendsTo (Trie.mk sampleTrie).RootNode.descent ∧
    ∃ c, (Trie.mk sampleTrie).RootNode.descent.getLast? = some c ∧ c ≠ .nil ∧
      c.LeftChild = .nil ∧ c.RightChild = .nil ∧
      (NodeIterator.mk .nil (Trie.mk sampleTrie).RootNode.descent).Value = some c :=
  ⟨by decide, C13_first_emission (Trie.mk sampleTrie) (by decide)⟩

theorem Node.descent_stackOk {t : Node} (_ht : t ≠ .nil) :
    List.Chain' Node.IsChildOf t.descent := by
  refine (Node.descent_chain t).imp ?_
  rintro a b ⟨hb, h | h⟩
  · exact ⟨hb, Or.inl h.2⟩
  · exact ⟨hb, Or.inr h.2⟩

/-- One call of `Next` from a state between calls: it does not panic, leaves a state
of the same kind with a nil unprocessedRoot, returns true exactly when it leaves a
non-empty stack, and `Value` is then non-nil exactly when it returned true. -/
theorem NodeIterator.Inv.step {root : Node} {i : NodeIterator} (hi : NodeIterator.Inv root i) :
    ∃ i1 b, i.Next = some (i1, b) ∧ NodeIterator.Inv root i1 ∧
      i1.unprocessedRoot = .nil ∧ NodeIterator.StackOk root i1.stack ∧
      (b = true ↔ i1.stack ≠ []) ∧
      ∃ v, i1.Value = some v ∧ (v ≠ .nil ↔ b = true) := by
  have key : ∀ (s : List Node) (b : Bool), NodeIterator.StackOk root s →
      (b = true ↔ s ≠ []) →
      NodeIterator.Inv root (NodeIterator.mk .nil s) ∧
      (NodeIterator.mk .nil s).unprocessedRoot = .nil ∧ NodeIterator.StackOk root s ∧
      (b = true ↔ s ≠ []) ∧
      ∃ v, (NodeIterator.mk .nil s).Value = some v ∧ (v ≠ .nil ↔ b = true) := by
    intro s b hs hb
    refine ⟨Or.inr ⟨rfl, hs⟩, rfl, hs, hb, ?_⟩
    rcases List.eq_nil_or_concat s with e | ⟨s1, n, e⟩
    · subst e
      refine ⟨.nil, rfl, ?_⟩
      simp [hb]
    · subst e
      rw [List.concat_eq_append] at hs hb ⊢
      refine ⟨n, NodeIterator.Value_concat _ _ _, ?_⟩
      rcases hs with e | ⟨_, _, hne⟩
      · simp at e
      · have : n ≠ .nil := hne n (by simp)
        simp [hb, this]
  obtain ⟨u, s⟩ := i
  rcases hi with ⟨hu, hs⟩ | ⟨hu, hs⟩
  · simp only at hu hs
    subst hu hs
    by_cases hr : u = .nil
    · subst hr
      exact ⟨_, false, NodeIterator.Next_done, key [] false (Or.inl rfl) (by simp)⟩
    · have hn : (NodeIterator.mk u []).Next
          = some (NodeIterator.mk .nil u.descent, true) := by
        have := NodeIterator.Next_fresh (t := u) hr
        simp only [NewNodeIterator, Trie.RootNode] at this
        rw [this, NodeIterator.dig_eq]
        simp
      refine ⟨_, true, hn, key _ true (Or.inr ⟨Node.descent_head hr,
        Node.descent_stackOk hr, Node.descent_mem_ne_nil u⟩) ?_⟩
      simp [Node.descent_ne_nil hr]
  · simp only at hu hs
    subst hu
    rcases List.eq_nil_or_concat s with e | ⟨s1, n, e⟩
    · subst e
      exact ⟨_, false, NodeIterator.Next_done, key [] false (Or.inl rfl) (by simp)⟩
    · subst e
      rw [List.concat_eq_append] at hs ⊢
      rcases List.eq_nil_or_concat s1 with e1 | ⟨s2, p, e1⟩
      · subst e1
        exact ⟨_, false, NodeIterator.Next_last n, key [] false (Or.inl rfl) (by simp)⟩
      · subst e1
        rw [List.concat_eq_append] at hs ⊢
        rcases hs with e | ⟨hh, hc, hne⟩
        · simp at e
        · have hpre : NodeIterator.StackOk root (s2 ++ [p]) := by
            refine Or.inr ⟨?_, hc.left_of_append, fun x hx => hne x (by simp at hx ⊢; tauto)⟩
            rw [List.head?_append_of_ne_nil _ (by simp)] at hh
            exact hh
          rw [NodeIterator.Next_child]
          by_cases hsame : p.LeftChild.same n = true
          · simp only [hsame, if_true]
            rw [NodeIterator.dig_eq]
            by_cases hR : p.RightChild = .nil
            · rw [hR]
              simp only [Node.descent, List.append_nil]
              exact ⟨_, true, rfl, key _ true hpre (by simp)⟩
            · refine ⟨_, true, rfl, key _ true (Or.inr ⟨?_, ?_, ?_⟩) (by simp)⟩
              · rw [List.head?_append_of_ne_nil _ (by simp)]
                rcases hpre with e | ⟨h1, _, _⟩
                · simp at e
                · exact h1
              · refine List.Chain'.append hc.left_of_append (Node.descent_stackOk hR) ?_
                intro x hx y hy
                rw [List.getLast?_concat] at hx
                rw [Node.descent_head hR] at hy
                simp only [Option.mem_def, Option.some.injEq] at hx hy
                subst hx hy
                exact ⟨hR, Or.inr rfl⟩
              · intro x hx
                rw [List.mem_append] at hx
                rcases hx with hx | hx
                · exact hne x (by simp at hx ⊢; tauto)
                · exact Node.descent_mem_ne_nil _ x hx
          · simp only [hsame]
            exact ⟨_, true, rfl, key _ true hpre (by simp)⟩

theorem NodeIterator.Inv.fresh (tr : Trie) : NodeIterator.Inv tr.RootNode (NewNodeIterator tr) :=
  Or.inl ⟨rfl, rfl⟩

/-- Any number of calls of `Next` from a state between calls. -/
theorem NodeIterator.Inv.reach {root : Node} (k : Nat) :
    ∀ (i : NodeIterator), NodeIterator.Inv root i →
      ∃ bs j, i.NextTimes k = some (bs, j) ∧ NodeIterator.Inv root j ∧
        (0 < k → j.unprocessedRoot = .nil ∧ NodeIterator.StackOk root j.stack ∧
          ∃ b v, bs.getLast? = some b ∧ j.Value = some v ∧ (v ≠ .nil ↔ b = true)) := by
  induction k with
  | zero => intro i hi; exact ⟨[], i, rfl, hi, fun h => absurd h (by omega)⟩
  | succ k ih =>
    intro i hi
    obtain ⟨i1, b, hn, hi1, hu, hs, _, v, hv, hvb⟩ := hi.step
    obtain ⟨bs, j, hk, hj, hlast⟩ := ih i1 hi1
    refine ⟨b :: bs, j, by simp [NodeIterator.NextTimes, hn, hk], hj, fun _ => ?_⟩
    cases k with
    | zero =>
      simp only [NodeIterator.NextTimes, Option.some.injEq, Prod.mk.injEq] at hk
      obtain ⟨rfl, rfl⟩ := hk
      exact ⟨hu, hs, b, v, rfl, hv, hvb⟩
    | succ k =>
      obtain ⟨hu2, hs2, b2, v2, hb2, hv2, hvb2⟩ := hlast (by omega)
      refine ⟨hu2, hs2, b2, v2, ?_, hv2, hvb2⟩
      cases bs with
      | nil => simp at hb2
      | cons c cs => rw [List.getLast?_cons_cons]; exact hb2

theorem Node.depth_child {a b : Node} (h : Node.IsChildOf a b) : b.depth < a.depth := by
  obtain ⟨hb, h | h⟩ := h
  · cases a with
    | nil => exact absurd h hb
    | leaf p l => exact absurd h hb
    | branch p x d l r =>
      simp only [Node.LeftChild] at h
      subst h
      simp only [Node.depth]
      omega
  · cases a with
    | nil => exact absurd h hb
    | leaf p l => exact absurd h hb
    | branch p x d l r =>
      simp only [Node.RightChild] at h
      subst h
      simp only [Node.depth]
      omega

theorem Node.depth_pos {t : Node} (h : t ≠ .nil) : 0 < t.depth := by
  cases t with
  | nil => exact absurd rfl h
  | leaf p l => simp [Node.depth]
  | branch p x d l r => simp only [Node.depth]; omega

/-- A chain of children that starts at a node is no longer than the longest path
below that node. -/
theorem Node.chain_length_le (s : List Node) : ∀ (t : Node), t ≠ .nil →
    s.head? = some t → List.Chain' Node.IsChildOf s → s.length ≤ t.depth := by
  induction s with
  | nil => intro t _ _ _; simp
  | cons a rest ih =>
    intro t ht hh hc
    simp only [List.head?_cons, Option.some.injEq] at hh
    subst hh
    cases rest with
    | nil => simpa using Node.depth_pos ht
    | cons b rest2 =>
      rw [List.chain'_cons] at hc
      have h1 := ih b hc.1.1 rfl hc.2
      have h2 := Node.depth_child hc.1
      simp only [List.length_cons] at h1 ⊢
      omega

/-- C15 (stack invariant and depth bound). For every trie and every number of calls
of `Next` on a fresh iterator, the calls return and the stack they leave is empty or
a chain that starts at the root of the trie in which every element is the left or the
right child of the element directly below it; its length is at most `H + 1`, with
`H` the height of the trie in edges, hence at most `NodeMaxHeight + 1` for a trie no
higher than `NodeMaxHeight`. -/
theorem C15_stack_chain_depth (tr : Trie) (k : Nat) :
    ∃ bs i, (NewNodeIterator tr).NextTimes k = some (bs, i) ∧
      (i.stack = [] ∨
        (i.stack.head? = some tr.RootNode ∧ List.Chain' Node.IsChildOf i.stack)) ∧
      i.stack.length ≤ tr.RootNode.height + 1 ∧
      ∀ NodeMaxHeight : Nat, tr.RootNode.height ≤ NodeMaxHeight →
        i.stack.length ≤ NodeMaxHeight + 1 := by
  obtain ⟨bs, i, hk, hi, _⟩ := NodeIterator.Inv.reach k _ (NodeIterator.Inv.fresh tr)
  have hshape : i.stack = [] ∨
      (i.stack.head? = some tr.RootNode ∧ List.Chain' Node.IsChildOf i.stack ∧
        ∀ x ∈ i.stack, x ≠ .nil) := by
    rcases hi with ⟨_, hs⟩ | ⟨_, hs⟩
    · exact Or.inl hs
    · exact hs
  have hlen : i.stack.length ≤ tr.RootNode.height + 1 := by
    rcases hshape with e | ⟨hh, hc, hne⟩
    · simp [e]
    · have hroot : tr.RootNode ≠ .nil := by
        cases hst : i.stack with
        | nil => simp [hst] at hh
        | cons a rest =>
          rw [hst] at hh hne
          simp only [List.head?_cons, Option.some.injEq] at hh
          rw [← hh]
          exact hne a (by simp)
      have := Node.chain_length_le i.stack tr.RootNode hroot hh hc
      simp only [Node.height]
      omega
  refine ⟨bs, i, hk, ?_, hlen, fun m hm => by omega⟩
  rcases hshape with e | ⟨hh, hc, _⟩
  · exact Or.inl e
  · exact Or.inr ⟨hh, hc⟩

theorem NodeIterator.Value_total (i : NodeIterator) : ∃ v, i.Value = some v := by
  obtain ⟨u, s⟩ := i
  rcases List.eq_nil_or_concat s with e | ⟨s1, n, e⟩
  · subst e; exact ⟨.nil, rfl⟩
  · subst e
    rw [List.concat_eq_append]
    exact ⟨n, NodeIterator.Value_concat _ _ _⟩

/-- Any sequence of `Next` and `Value` calls from a state between calls. -/
theorem NodeIterator.Inv.run {root : Node} (calls : List Call) :
    ∀ (i : NodeIterator) (prev : Option Bool), NodeIterator.Inv root i →
      (∀ b, prev = some b → ∃ v, i.Value = some v ∧ (v ≠ .nil ↔ b = true)) →
      ∃ rs j, i.run calls = some (rs, j) ∧ NodeIterator.Inv root j ∧
        ∀ b, CallResult.lastNext prev rs = some b →
          ∃ v, j.Value = some v ∧ (v ≠ .nil ↔ b = true) := by
  induction calls with
  | nil => intro i prev hi hp; exact ⟨[], i, rfl, hi, hp⟩
  | cons c cs ih =>
    intro i prev hi hp
    cases c with
    | next =>
      obtain ⟨i1, b, hn, hi1, _, _, _, v, hv, hvb⟩ := hi.step
      obtain ⟨rs, j, hr, hj, hl⟩ := ih i1 (some b) hi1 (by
        intro b1 hb1
        simp only [Option.some.injEq] at hb1
        subst hb1
        exact ⟨v, hv, hvb⟩)
      exact ⟨.next b :: rs, j, by simp [NodeIterator.run, hn, hr], hj, hl⟩
    | value =>
      obtain ⟨v, hv⟩ := NodeIterator.Value_total i
      obtain ⟨rs, j, hr, hj, hl⟩ := ih i prev hi hp
      exact ⟨.value v :: rs, j, by simp [NodeIterator.run, hv, hr], hj, hl⟩

/-- C19 (the iterator never reads an empty stack). For every trie, the empty one
included, and every finite sequence of `Next` and `Value` calls on a fresh iterator:
no call panics (in the model a call panics exactly when `peek` runs on an empty
stack), and whenever `Next` has been called, `Value` returns a non-nil node exactly
when the most recent call of `Next` returned true. -/
theorem C19_no_empty_stack_read (tr : Trie) (calls : List Call) :
    (∃ rs i, (NewNodeIterator tr).run calls = some (rs, i) ∧
      ∀ b, CallResult.lastNext none rs = some b →
        ∃ v, i.Value = some v ∧ (v ≠ .nil ↔ b = true)) ∧
    ∀ j : NodeIterator, j.peek = none ↔ j.stack = [] := by
  refine ⟨?_, fun j => ?_⟩
  · obtain ⟨rs, i, hr, _, hl⟩ := NodeIterator.Inv.run calls (NewNodeIterator tr) none
      (NodeIterator.Inv.fresh tr) (by intro b hb; cases hb)
    exact ⟨rs, i, hr, hl⟩
  · obtain ⟨u, s⟩ := j
    rcases List.eq_nil_or_concat s with e | ⟨s1, n, e⟩
    · subst e; simp [NodeIterator.peek]
    · subst e
      rw [List.concat_eq_append, NodeIterator.peek_concat]
      simp

theorem Follows.mid (init rest : List Node) (a b : Node) :
    Follows (init ++ a :: b :: rest) a b := by
  refine ⟨init.length, ?_, ?_⟩
  · rw [List.getElem?_append_right (le_refl _)]; simp
  · rw [List.getElem?_append_right (by omega)]; simp

theorem Follows.append_right {xs : List Node} {a b : Node} (h : Follows xs a b)
    (post : List Node) : Follows (xs ++ post) a b := by
  obtain ⟨k, h1, h2⟩ := h
  have hk : k + 1 < xs.length := by
    by_contra hc
    rw [List.getElem?_eq_none (by omega)] at h2
    cases h2
  exact ⟨k, by rw [List.getElem?_append_left (by omega)]; exact h1,
    by rw [List.getElem?_append_left hk]; exact h2⟩

theorem Follows.append_left {xs : List Node} {a b : Node} (h : Follows xs a b)
    (pre : List Node) : Follows (pre ++ xs) a b := by
  obtain ⟨k, h1, h2⟩ := h
  refine ⟨pre.length + k, ?_, ?_⟩
  · rw [List.getElem?_append_right (by omega)]
    simpa using h1
  · rw [List.getElem?_append_right (by omega)]
    have : pre.length + k + 1 - pre.length = k + 1 := by omega
    rw [this]; exact h2

theorem Node.postorder_last {t : Node} (ht : t ≠ .nil) :
    ∃ init, t.postorder = init ++ [t] := by
  cases t with
  | nil => exact absurd rfl ht
  | leaf p l => exact ⟨[], rfl⟩
  | branch p x d l r => exact ⟨l.postorder ++ r.postorder, rfl⟩

theorem Node.postorder_head (t : Node) : t ≠ .nil →
    ∃ c rest, t.postorder = c :: rest ∧ t.descent.getLast? = some c := by
  induction t with
  | nil => intro h; exact absurd rfl h
  | leaf p l => intro _; exact ⟨_, [], rfl, rfl⟩
  | branch p x d l r ihl ihr =>
    intro _
    by_cases hl : l = .nil
    · subst hl
      by_cases hr : r = .nil
      · subst hr
        exact ⟨_, [], rfl, by simp [Node.descent]⟩
      · obtain ⟨c, rest, e, hc⟩ := ihr hr
        refine ⟨c, rest ++ [Node.branch p x d .nil r], by simp [Node.postorder, e], ?_⟩
        simp only [Node.descent, ne_eq, not_true_eq_false, if_false]
        rw [getLast?_cons_of_ne_nil _ (Node.descent_ne_nil hr)]
        exact hc
    · obtain ⟨c, rest, e, hc⟩ := ihl hl
      refine ⟨c, rest ++ r.postorder ++ [Node.branch p x d l r],
        by simp [Node.postorder, e], ?_⟩
      simp only [Node.descent, ne_eq, hl, not_false_eq_true, if_true]
      rw [getLast?_cons_of_ne_nil _ (Node.descent_ne_nil hl)]
      exact hc

/-- The post-order of a subtree is a contiguous part of the post-order of the trie. -/
theorem Node.postorder_infix (t : Node) : ∀ p ∈ t.nodes,
    ∃ pre post, t.postorder = pre ++ p.postorder ++ post := by
  induction t with
  | nil => intro p hp; simp [Node.nodes] at hp
  | leaf a l =>
    intro p hp
    simp only [Node.nodes, List.mem_singleton] at hp
    subst hp
    exact ⟨[], [], by simp⟩
  | branch a x d l r ihl ihr =>
    intro p hp
    simp only [Node.nodes, List.mem_cons, List.mem_append] at hp
    rcases hp with rfl | hp | hp
    · exact ⟨[], [], by simp⟩
    · obtain ⟨pre, post, e⟩ := ihl p hp
      exact ⟨pre, post ++ r.postorder ++ [Node.branch a x d l r],
        by simp [Node.postorder, e]⟩
    · obtain ⟨pre, post, e⟩ := ihr p hp
      exact ⟨l.postorder ++ pre, post ++ [Node.branch a x d l r],
        by simp [Node.postorder, e]⟩

/-- The advance rule inside the post-order of one Branch. -/
theorem Node.follows_branch (a : Nat) (x : Bytes32) (d : Bool) (l r : Node) :
    (l ≠ .nil → r ≠ .nil → ∃ c, r.descent.getLast? = some c ∧
      Follows (Node.branch a x d l r).postorder l c) ∧
    (l ≠ .nil → r = .nil → Follows (Node.branch a x d l r).postorder l
      (Node.branch a x d l r)) ∧
    (r ≠ .nil → Follows (Node.branch a x d l r).postorder r (Node.branch a x d l r)) := by
  refine ⟨fun hl hr => ?_, fun hl hr => ?_, fun hr => ?_⟩
  · obtain ⟨init, e1⟩ := Node.postorder_last hl
    obtain ⟨c, rest, e2, hc⟩ := Node.postorder_head r hr
    refine ⟨c, hc, ?_⟩
    have := (Follows.mid init rest l c).append_right [Node.branch a x d l r]
    simpa [Node.postorder, e1, e2] using this
  · obtain ⟨init, e1⟩ := Node.postorder_last hl
    subst hr
    have := Follows.mid init [] l (Node.branch a x d l .nil)
    simpa [Node.postorder, e1] using this
  · obtain ⟨init, e1⟩ := Node.postorder_last hr
    have := (Follows.mid init [] r (Node.branch a x d l r)).append_left l.postorder
    simpa [Node.postorder, e1] using this

theorem Follows.unique {seq : List Node} (hd : seq.Nodup) {a b : Node}
    (h : Follows seq a b) (k : Nat) (hk : seq[k]? = some a) : seq[k + 1]? = some b := by
  obtain ⟨j, h1, h2⟩ := h
  have hj : j < seq.length := by
    by_contra hc
    rw [List.getElem?_eq_none (by omega)] at h1
    cases h1
  have hk2 : k < seq.length := by
    by_contra hc
    rw [List.getElem?_eq_none (by omega)] at hk
    cases hk
  rw [List.getElem?_eq_getElem hj] at h1
  rw [List.getElem?_eq_getElem hk2] at hk
  have : seq[j] = seq[k] := by
    simp only [Option.some.injEq] at h1 hk
    rw [h1, hk]
  have := (List.Nodup.getElem_inj_iff hd).mp this
  subst this
  exact h2

theorem NodeIterator.NextTimes_fresh (t : Node) (ht : t.IsTree) :
    (NewNodeIterator ⟨t⟩).NextTimes (t.size + 1)
      = some (List.replicate t.size true ++ [false], NodeIterator.mk .nil []) := by
  by_cases hn : t = .nil
  · subst hn; rfl
  · have h1 := NodeIterator.NextTimes_of_emits (NodeIterator.emits_fresh hn ht)
    have h2 : (NodeIterator.mk .nil [t]).NextTimes 1
        = some ([false], NodeIterator.mk .nil []) := by
      simp [NodeIterator.NextTimes, NodeIterator.Next_last]
    have h3 := NodeIterator.NextTimes_add _ _ _ _ _ _ _ h1 h2
    rw [Node.length_postorder] at h3
    exact h3

/-- C14 (advance rule). For every trie of distinct node objects, in the sequence the
consumer loop emits: a node `n` that is the left child of a node `p` with a right
child is followed by the childless node at the end of the left-priority descent from
that right child; a node `n` that is the right child of `p`, or the left child of a
`p` without right child, is followed by `p`; and the root is the last emitted node,
the call of `Next` after it returning false. -/
theorem C14_advance_rule (tr : Trie) (ht : tr.root.IsTree) (fuel : Nat)
    (hf : tr.root.size < fuel) :
    ∃ seq, (NewNodeIterator tr).drain fuel = some seq ∧
      (∀ (k : Nat) (n p : Node), seq[k]? = some n → n ≠ .nil → p ∈ tr.root.nodes →
        (n = p.LeftChild ∧ p.RightChild ≠ .nil →
          seq[k + 1]? = p.RightChild.descent.getLast? ∧ seq[k + 1]? ≠ none) ∧
        (n = p.RightChild ∨ (n = p.LeftChild ∧ p.RightChild = .nil) →
          seq[k + 1]? = some p)) ∧
      (∀ k : Nat, seq[k]? = some tr.root → tr.root ≠ .nil →
        k + 1 = seq.length ∧
        (NewNodeIterator tr).NextTimes (k + 2)
          = some (List.replicate (k + 1) true ++ [false], NodeIterator.mk .nil [])) := by
  obtain ⟨t⟩ := tr
  simp only at ht hf ⊢
  have hd : t.postorder.Nodup := (Node.postorder_perm_nodes t).nodup_iff.mpr ht.nodup_nodes
  refine ⟨t.postorder, NodeIterator.drain_fresh t ht fuel hf, ?_, ?_⟩
  · intro k n p hk hn hp
    obtain ⟨pre, post, e⟩ := Node.postorder_infix t p hp
    have lift : ∀ b, Follows p.postorder n b → t.postorder[k + 1]? = some b := by
      intro b hb
      have := (hb.append_left pre).append_right post
      rw [← e] at this
      exact this.unique hd k hk
    cases p with
    | nil =>
      simp only [Node.LeftChild, Node.RightChild]
      refine ⟨fun h => absurd h.1 hn, fun h => ?_⟩
      rcases h with h | h
      · exact absurd h hn
      · exact absurd h.1 hn
    | leaf a l =>
      simp only [Node.LeftChild, Node.RightChild]
      refine ⟨fun h => absurd h.1 hn, fun h => ?_⟩
      rcases h with h | h
      · exact absurd h hn
      · exact absurd h.1 hn
    | branch a x d l r =>
      simp only [Node.LeftChild, Node.RightChild]
      obtain ⟨f1, f2, f3⟩ := Node.follows_branch a x d l r
      refine ⟨?_, ?_⟩
      · rintro ⟨rfl, hr⟩
        obtain ⟨c, hc, hf1⟩ := f1 hn hr
        rw [hc, lift c hf1]
        simp
      · rintro (rfl | ⟨rfl, hr⟩)
        · exact lift _ (f3 hn)
        · exact lift _ (f2 hn hr)
  · intro k hk hn
    obtain ⟨init, e⟩ := Node.postorder_last hn
    have hlen : t.postorder.length = init.length + 1 := by rw [e]; simp
    have hk2 : k = init.length := by
      have h1 : t.postorder[init.length]? = some t := by rw [e]; simp
      have hk3 : k < t.postorder.length := by
        by_contra hc
        rw [List.getElem?_eq_none (by omega)] at hk
        cases hk
      have h4 : init.length < t.postorder.length := by omega
      rw [List.getElem?_eq_getElem hk3] at hk
      rw [List.getElem?_eq_getElem h4] at h1
      have : t.postorder[k] = t.postorder[init.length] := by
        simp only [Option.some.injEq] at h1 hk
        rw [h1, hk]
      exact (List.Nodup.getElem_inj_iff hd).mp this
    have hsz : t.size = k + 1 := by rw [← Node.length_postorder, hlen, hk2]
    refine ⟨by omega, ?_⟩
    have := NodeIterator.NextTimes_fresh t ht
    rw [hsz] at this
    exact this

theorem C14_advance_rule_witness :
    (Trie.mk sampleTrie).root.IsTree ∧ (Trie.mk sampleTrie).root.size < 7 ∧
    ∃ seq, (NewNodeIterator (Trie.mk sampleTrie)).drain 7 = some seq ∧
      (∀ (k : Nat) (n p : Node), seq[k]? = some n → n ≠ .nil →
        p ∈ (Trie.mk sampleTrie).root.nodes →
        (n = p.LeftChild ∧ p.RightChild ≠ .nil →
          seq[k + 1]? = p.RightChild.descent.getLast? ∧ seq[k + 1]? ≠ none) ∧
        (n = p.RightChild ∨ (n = p.LeftChild ∧ p.RightChild = .nil) →
          seq[k + 1]? = some p)) ∧
      (∀ k : Nat, seq[k]? = some (Trie.mk sampleTrie).root →
        (Trie.mk sampleTrie).root ≠ .nil →
        k + 1 = seq.length ∧
        (NewNodeIterator (Trie.mk sampleTrie)).NextTimes (k + 2)
          = some (List.replicate (k + 1) true ++ [false], NodeIterator.mk .nil [])) :=
  ⟨by decide, by decide, C14_advance_rule (Trie.mk sampleTrie) (by decide) 7 (by decide)⟩

/-! ## hashing: the Merkle root -/

/-- Lazy hashing against the reference hash, with the reference hash of the result. -/
theorem Node.Hash_refHash (H : Bytes32 → Bytes32 → Bytes32) (D : Int → Bytes32) (h : Nat)
    (t : Node) : t.WellFormed →
    (∀ a ∈ t.nodes, ∀ b ∈ a.descendants, b.isDirty = true → a.isDirty = true) →
    (∀ a ∈ t.nodes, a.isDirty = false → a.hashField = a.refHash H D h) →
    ∃ t1, (t ≠ .nil → t.Hash H D h = some (t1, t.refHash H D h)) ∧
      (t = .nil → t1 = .nil ∧ t.refHash H D h = D (h : Int)) ∧
      (∀ a ∈ t1.nodes, a.isDirty = false ∧ a.hashField = a.refHash H D h) ∧
      t1.refHash H D h = t.refHash H D h := by
  induction t with
  | nil =>
    intro _ _ _
    exact ⟨.nil, fun e => absurd rfl e, fun _ => ⟨rfl, rfl⟩,
      fun a ha => by simp [Node.nodes] at ha, rfl⟩
  | leaf p l =>
    intro _ _ _
    refine ⟨.leaf p l, fun _ => rfl, fun e => absurd e (by simp), fun a ha => ?_, rfl⟩
    simp only [Node.nodes, List.mem_singleton] at ha
    subst ha
    exact ⟨rfl, rfl⟩
  | branch p x dirty l r ihl ihr =>
    intro hw hup hclean
    obtain ⟨hc, hwl, hwr⟩ := hw
    cases dirty
    · have hx : x = (Node.branch p x false l r).refHash H D h :=
        hclean (Node.branch p x false l r) (by simp [Node.nodes]) rfl
      refine ⟨Node.branch p x false l r, fun _ => ?_, fun e => absurd e (by simp),
        fun a ha => ?_, rfl⟩
      · rw [Node.Hash_clean, ← hx]
      · have hcl : a.isDirty = false := by
          simp only [Node.nodes, List.mem_cons] at ha
          rcases ha with rfl | ha
          · rfl
          · by_contra hd
            have hd1 : a.isDirty = true := by simpa using hd
            have := hup (Node.branch p x false l r) (by simp [Node.nodes]) a
              (by simpa [Node.descendants, Node.LeftChild, Node.RightChild] using ha) hd1
            simp [Node.isDirty] at this
        exact ⟨hcl, hclean a ha hcl⟩
    · have hsubl : ∀ a ∈ l.nodes, a ∈ (Node.branch p x true l r).nodes := fun a ha => by
        simp [Node.nodes, ha]
      have hsubr : ∀ a ∈ r.nodes, a ∈ (Node.branch p x true l r).nodes := fun a ha => by
        simp [Node.nodes, ha]
      obtain ⟨l1, hl, hl0, hl1, hlr⟩ := ihl hwl
        (fun a ha => hup a (hsubl a ha)) (fun a ha => hclean a (hsubl a ha))
      obtain ⟨r1, hr, hr0, hr1, hrr⟩ := ihr hwr
        (fun a ha => hup a (hsubr a ha)) (fun a ha => hclean a (hsubr a ha))
      have e := Node.Hash_dirty H D p x l r h l1 r1 (l.refHash H D h) (r.refHash H D h)
        hc hl hl0 hr hr0
      refine ⟨_, fun _ => e, fun e0 => absurd e0 (by simp), fun a ha => ?_, ?_⟩
      · simp only [Node.nodes, List.mem_cons, List.mem_append] at ha
        rcases ha with rfl | ha | ha
        · exact ⟨rfl, by simp [Node.hashField, Node.refHash, hlr, hrr]⟩
        · exact hl1 a ha
        · exact hr1 a ha
      · simp [Node.refHash, hlr, hrr]

/-- C16 (lazy hashing computes the Merkle root). For every well-formed trie with a
non-nil root in which every ancestor of a dirty Branch is dirty and every clean Branch
caches the reference Merkle hash of its subtree, `Hash(h)` on the root returns the
reference Merkle hash of the trie, and afterwards no Branch of the trie is dirty and
every node's stored hash is its reference hash. -/
theorem C16_lazy_hash_is_merkle_root (H : Bytes32 → Bytes32 → Bytes32) (D : Int → Bytes32)
    (t : Node) (h : Nat) (hw : t.WellFormed) (hn : t ≠ .nil)
    (hup : ∀ a ∈ t.nodes, ∀ b ∈ a.descendants, b.isDirty = true → a.isDirty = true)
    (hclean : ∀ a ∈ t.nodes, a.isDirty = false → a.hashField = a.refHash H D h) :
    ∃ t1, t.Hash H D h = some (t1, t.refHash H D h) ∧
      ∀ a ∈ t1.nodes, a.isDirty = false ∧ a.hashField = a.refHash H D h := by
  obtain ⟨t1, h1, _, h3, _⟩ := Node.Hash_refHash H D h t hw hup hclean
  exact ⟨t1, h1 hn, h3⟩

theorem C16_lazy_hash_is_merkle_root_witness :
    mixedTrie.WellFormed ∧ mixedTrie ≠ .nil ∧
    ∃ t1, mixedTrie.Hash sampleInter sampleDefault 3
        = some (t1, mixedTrie.refHash sampleInter sampleDefault 3) ∧
      ∀ a ∈ t1.nodes, a.isDirty = false ∧
        a.hashField = a.refHash sampleInter sampleDefault 3 :=
  ⟨by simp [mixedTrie, Node.WellFormed], by decide,
    C16_lazy_hash_is_merkle_root sampleInter sampleDefault mixedTrie 3
      (by simp [mixedTrie, Node.WellFormed]) (by decide) (by decide) (by decide)⟩

/-- C17 (the explicit-stack iterator is the recursive post-order). For every trie of
distinct node objects, the sequence the consumer loop emits on a fresh iterator is,
element by element, the list `postorder(root)` with `postorder(nil) = []` and
`postorder(n) = postorder(n.LeftChild) ++ postorder(n.RightChild) ++ [n]`; its last
element is the root. -/
theorem C17_iterator_is_postorder (tr : Trie) (ht : tr.root.IsTree) (fuel : Nat)
    (hf : tr.root.size < fuel) :
    (NewNodeIterator tr).drain fuel = some tr.root.postorder ∧
    (tr.root ≠ .nil → tr.root.postorder.getLast? = some tr.root) ∧
    Node.postorder .nil = [] ∧
    ∀ n : Node, n ≠ .nil →
      n.postorder = n.LeftChild.postorder ++ n.RightChild.postorder ++ [n] := by
  refine ⟨NodeIterator.drain_fresh tr.root ht fuel hf, fun hn => ?_, rfl, fun n hn => ?_⟩
  · obtain ⟨init, e⟩ := Node.postorder_last hn
    rw [e, List.getLast?_concat]
  · cases n with
    | nil => exact absurd rfl hn
    | leaf p l => rfl
    | branch p x d l r => rfl

theorem C17_iterator_is_postorder_witness :
    (Trie.mk sampleTrie).root.IsTree ∧ (Trie.mk sampleTrie).root.size < 7 ∧
    (NewNodeIterator (Trie.mk sampleTrie)).drain 7
      = some (Trie.mk sampleTrie).root.postorder ∧
    ((Trie.mk sampleTrie).root ≠ .nil →
      (Trie.mk sampleTrie).root.postorder.getLast? = some (Trie.mk sampleTrie).root) ∧
    Node.postorder .nil = [] ∧
    ∀ n : Node, n ≠ .nil →
      n.postorder = n.LeftChild.postorder ++ n.RightChild.postorder ++ [n] :=
  ⟨by decide, by decide, C17_iterator_is_postorder (Trie.mk sampleTrie) (by decide) 7
    (by decide)⟩

theorem Node.Hash_leftChain (H : Bytes32 → Bytes32 → Bytes32) (D : Int → Bytes32) (h : Nat)
    {c c1 : Node} {d : Bytes32} (hc : c.Hash H D h = some (c1, d)) (k : Nat) :
    ((Node.leftChain k c).Hash H D h).map Prod.snd
      = some (Nat.iterate (fun y => H y (D (h : Int))) k d) := by
  induction k with
  | zero => simp [Node.leftChain, hc]
  | succ k ih =>
    have hne : Node.leftChain k c ≠ .nil := by
      intro e; rw [e] at ih; simp [Node.Hash] at ih
    simp only [Node.leftChain]
    rw [Node.Hash_digest_dirty H D k 0 _ .nil h (Or.inl hne)]
    simp [Node.sideDigest, hne, ih, Function.iterate_succ_apply']

theorem Node.Hash_rightChain (H : Bytes32 → Bytes32 → Bytes32) (D : Int → Bytes32) (h : Nat)
    {c c1 : Node} {d : Bytes32} (hc : c.Hash H D h = some (c1, d)) (k : Nat) :
    ((Node.rightChain k c).Hash H D h).map Prod.snd
      = some (Nat.iterate (fun y => H (D (h : Int)) y) k d) := by
  induction k with
  | zero => simp [Node.rightChain, hc]
  | succ k ih =>
    have hne : Node.rightChain k c ≠ .nil := by
      intro e; rw [e] at ih; simp [Node.Hash] at ih
    simp only [Node.rightChain]
    rw [Node.Hash_digest_dirty H D k 0 .nil _ h (Or.inr hne)]
    simp [Node.sideDigest, hne, ih, Function.iterate_succ_apply']

/-- C18 (the height is passed down unchanged). When a dirty Branch with a child is
hashed with `Hash(h)`, its digest is the interior hash of its two sides, where a
present child is asked `Hash(h)` with the same `h` and an absent child gives the
default hash of the same `h`, left and right alike; so `k` nested dirty one-child
Branches over a node answering `d` give `d` combined `k` times with the default hash
of the one height `h`. -/
theorem C18_height_passed_unchanged (H : Bytes32 → Bytes32 → Bytes32) (D : Int → Bytes32)
    (p : Nat) (x : Bytes32) (l r : Node) (h : Nat) (hc : l ≠ .nil ∨ r ≠ .nil) :
    ((Node.branch p x true l r).Hash H D h).map Prod.snd
      = ((if l ≠ .nil then (l.Hash H D h).map Prod.snd else some (D (h : Int))).bind
          (fun lHash =>
            (if r ≠ .nil then (r.Hash H D h).map Prod.snd else some (D (h : Int))).map
              (fun rHash => H lHash rHash))) ∧
    ∀ (k : Nat) (c c1 : Node) (d : Bytes32), c.Hash H D h = some (c1, d) →
      ((Node.leftChain k c).Hash H D h).map Prod.snd
        = some (Nat.iterate (fun y => H y (D (h : Int))) k d) ∧
      ((Node.rightChain k c).Hash H D h).map Prod.snd
        = some (Nat.iterate (fun y => H (D (h : Int)) y) k d) := by
  refine ⟨?_, fun k c c1 d hcd => ⟨Node.Hash_leftChain H D h hcd k,
    Node.Hash_rightChain H D h hcd k⟩⟩
  have := Node.Hash_digest_dirty H D p x l r h hc
  simpa [Node.sideDigest] using this

theorem C18_height_passed_unchanged_witness :
    ((Node.leftChain 2 (.leaf 5 ⟨13, 2, 2⟩)).Hash sampleInter sampleDefault 3).map Prod.snd
      = some (sampleInter (sampleInter 13 (sampleDefault 3)) (sampleDefault 3)) ∧
    ((Node.rightChain 2 (.leaf 5 ⟨13, 2, 2⟩)).Hash sampleInter sampleDefault 3).map Prod.snd
      = some (sampleInter (sampleDefault 3) (sampleInter (sampleDefault 3) 13)) :=
  (C18_height_passed_unchanged sampleInter sampleDefault 0 0 (.leaf 5 ⟨13, 2, 2⟩) .nil 3
    (Or.inl (by decide))).2 2 (.leaf 5 ⟨13, 2, 2⟩) (.leaf 5 ⟨13, 2, 2⟩) 13 rfl

/-! ## TypesToStrings -/

theorem TypesToStrings_foldl (types : List EventType) :
    ∀ acc : List String,
      types.foldl (fun ss typ => ss ++ [typ.val]) acc = acc ++ types.map EventType.val := by
  induction types with
  | nil => intro acc; simp
  | cons t ts ih => intro acc; simp [ih]

/-- C20 (TypesToStrings converts element by element, in order). For every list of
event types, the result has the same length, its `i`-th element is the string value
of the `i`-th input element for every index `i`, and the empty input gives the empty
list. -/
theorem C20_types_to_strings (types : List EventType) :
    (TypesToStrings types).length = types.length ∧
    (∀ i : Nat, (TypesToStrings types)[i]? = (types[i]?).map EventType.val) ∧
    TypesToStrings [] = [] := by
  have e : TypesToStrings types = types.map EventType.val := by
    simpa [TypesToStrings] using TypesToStrings_foldl types []
  refine ⟨by rw [e]; simp, fun i => by rw [e]; simp, rfl⟩

end trie
